import Mathlib

/-!
# Posit arithmetic (`lib/posit.cpp`)

A shallow embedding of the `Posit` class of `lib/posit.cpp`.

* The storage word `POSIT_UTYPE` is a natural number below `2 ^ N`, where `N`
  stands for `POSIT_SIZE`; `N` is a parameter of every definition because
  `posit.h` is not part of the sources at hand.
* An `int` is 32 bits wide: every `int` result of the source is taken modulo
  `2 ^ 32` and read as signed (`toInt32`); an `int16_t` likewise (`toInt16`).
  The format parameters `mNbits` and `mEs` are natural numbers (a format
  has `nbits ≥ 2` and `es ≥ 0`).
* The helpers of `util.h` and `pack.h` (`util_*`, `pack_posit`,
  `unpack_posit`) and the constants of `posit.h` are not part of the sources
  at hand; each of them is modelled from the specification and marked so.
* The methods of `Posit` are translated from `lib/posit.cpp`, with `this` as
  the argument `x`. The general path of `mul` is `Posit.mulGeneral`; the
  record it packs is `Posit.mulRecord`, and the record that `fromIeee` packs
  is `Posit.fromIeeeRecord`.
* `set(float)` and `set(double)` take the class that `fpclassify` gives their
  argument (`FpClass`); `getFloat` and `getDouble` return the branch they
  take (`IeeeValue`), since `pack_float` and `pack_double` are absent too.
-/

namespace Bfp

/-! ## Bit helpers -/

/-- Bit `k` of the word `x` (bit `0` is the least significant one). -/
def bitAt (x k : Nat) : Bool := decide (x / 2 ^ k % 2 = 1)

/-- Length of the run of bits equal to `v` that starts at bit `k - 1` of `x`
and goes downwards; at most `k`. -/
def runLen (v : Bool) (x : Nat) : Nat → Nat
  | 0 => 0
  | k + 1 => if bitAt x k = v then runLen v x k + 1 else 0

/-- Modelled from the spec: the macro `POW2` of `util.h` (absent), two to the
power `n`, as an `int`. -/
def POW2 (n : Nat) : Int := 2 ^ n

/-- Value of an `int` (32 bits): the result modulo `2 ^ 32`, read as signed.
Sums, differences and products of the source are taken exactly and wrapped
where the source stores or compares them, which gives the same `int`. -/
def toInt32 (v : Int) : Int := (v + 2 ^ 31) % 2 ^ 32 - 2 ^ 31

/-- Modelled from the spec: the macro `CLZ` of `util.h` (absent), the
leading-zero count of an `N`-bit word, a pure function supplied by the
platform; the count of an all-zero word is `N`. -/
def CLZ (N x : Nat) : Nat := runLen false x N

/-! ## Constants of `posit.h` -/

/-- Modelled from the spec: the constant `POSIT_ZERO` of `posit.h` (absent),
the all-zero pattern. -/
def POSIT_ZERO : Nat := 0

/-- Modelled from the spec: the constant `POSIT_ONE` of `posit.h` (absent),
the fixed one-pattern `0100...0`, left-justified in the storage word. -/
def POSIT_ONE (N : Nat) : Nat := 2 ^ (N - 2)

/-- Modelled from the spec: the constant `POSIT_INF` of `posit.h` (absent),
the pattern with only the sign bit set. -/
def POSIT_INF (N : Nat) : Nat := 2 ^ (N - 1)

/-- Modelled from the spec: the constant `POSIT_MSB` of `posit.h` (absent),
the top bit of the storage word. -/
def POSIT_MSB (N : Nat) : Nat := 2 ^ (N - 1)

/-! ## Helpers of `util.h` -/

/-- Modelled from the spec: `util_neg` of `util.h` (absent), the
two's-complement negation of the packed integer within the top `nbits` bits
of the storage word. -/
def util_neg (N p nbits : Nat) : Nat :=
  (2 ^ nbits - p / 2 ^ (N - nbits) % 2 ^ nbits) % 2 ^ nbits * 2 ^ (N - nbits)

/-- Modelled from the spec: `util_rec` of `util.h` (absent), the closed-form
reciprocal: the bits below the sign bit are negated as a two's-complement
field, which negates regime and exponent and complements the fraction; that
is the negation with the sign bit flipped back. Zero and infinity are
exchanged, as the NaN results of division require. -/
def util_rec (N p nbits _es : Nat) : Nat :=
  (util_neg N p nbits + POSIT_MSB N) % 2 ^ N

/-- Modelled from the spec: `util_is_zero` of `util.h` (absent), the test
against the all-zero pattern. -/
def util_is_zero (p : Nat) : Bool := p == POSIT_ZERO

/-- Modelled from the spec: `util_is_one` of `util.h` (absent), the test
against the fixed one-pattern; the pattern of minus one (the negation of the
one-pattern, `1100...0`) passes too, since `Posit::mul` asks for the sign of
a value that is one. -/
def util_is_one (N p : Nat) : Bool := p == POSIT_ONE N || p == 2 ^ N - POSIT_ONE N

/-- Modelled from the spec: `util_is_inf` of `util.h` (absent), the test
against the pattern with only the sign bit set. -/
def util_is_inf (N p : Nat) : Bool := p == POSIT_INF N

/-- Modelled from the spec: `util_is_neg` of `util.h` (absent), the test of
the top bit of the storage word. -/
def util_is_neg (N p : Nat) : Bool := bitAt p (N - 1)

/-- Modelled from the spec: `util_ss` of `util.h` (absent), the width of the
sign field, always one. -/
def util_ss : Nat := 1

/-- Modelled from the spec: `util_rs` of `util.h` (absent), the regime width:
the run length of the first bit after the sign bit, clipped to `nbits - 1`.
The bits are read in the `nbits`-wide view `p / 2 ^ (N - nbits)`. -/
def util_rs (N p nbits : Nat) : Nat :=
  runLen (bitAt (p / 2 ^ (N - nbits)) (nbits - 2)) (p / 2 ^ (N - nbits)) (nbits - 1)

/-- Modelled from the spec: `util_es` of `util.h` (absent), the exponent
width `min(es, nbits - 1 - sign_width - regimeWidth)`, never negative. -/
def util_es (N p nbits es : Nat) : Nat :=
  min es (nbits - 1 - util_ss - util_rs N p nbits)

/-- Modelled from the spec: `util_fs` of `util.h` (absent), the fraction
width: the bits that remain, never negative. -/
def util_fs (N p nbits es : Nat) : Nat :=
  nbits - 1 - util_ss - util_rs N p nbits - util_es N p nbits es

/-! ## The codec of `pack.h` -/

/-- The unpacked record `unpkd_posit_t`: sign, regime, exponent and the
fraction left-justified in the storage word (hidden bit not stored). -/
structure unpkd_posit_t where
  neg : Bool
  reg : Int
  exp : Nat
  frac : Nat
  deriving DecidableEq, Repr

/-- Modelled from the spec: `unpack_posit` of `pack.h` (absent). The sign bit
is extracted; the regime is decoded from the run after the sign bit (a run of
`m` ones is regime `m - 1`, a run of `m` zeros is regime `-m`); the next
`util_es` bits are the exponent, extended with zeros on the right when the
field is narrower than `es`; the remaining bits are the fraction,
left-justified in the storage word. -/
def unpack_posit (N p nbits es : Nat) : unpkd_posit_t :=
  let b := p / 2 ^ (N - nbits)
  let rs := util_rs N p nbits
  let ew := util_es N p nbits es
  let fw := util_fs N p nbits es
  { neg := bitAt b (nbits - 1)
    reg := if bitAt b (nbits - 2) then (rs : Int) - 1 else -(rs : Int)
    exp := b / 2 ^ fw % 2 ^ ew * 2 ^ (es - ew)
    frac := b % 2 ^ fw * 2 ^ (N - fw) % 2 ^ N }

/-- Modelled from the spec: `pack_posit` of `pack.h` (absent), the inverse of
`unpack_posit`. After the sign bit comes the regime run, saturated to the
`nbits - 1` bits available (the terminator is omitted when it does not fit);
terminator, exponent and fraction are written in the bits that remain, and
what falls beyond `nbits` is truncated, not rounded. -/
def pack_posit (N : Nat) (up : unpkd_posit_t) (nbits es : Nat) : Nat :=
  let m := if 0 ≤ up.reg then (up.reg + 1).toNat else (-up.reg).toNat
  let rs := min m (nbits - 1)
  let rem := nbits - 1 - rs
  let t := (if 0 ≤ up.reg then 0 else 1) * 2 ^ (es + N) + up.exp % 2 ^ es * 2 ^ N
    + up.frac % 2 ^ N
  let body := (if up.neg then 1 else 0) * 2 ^ (nbits - 1)
    + (if 0 ≤ up.reg then 2 ^ rs - 1 else 0) * 2 ^ rem + t / 2 ^ (1 + es + N - rem)
  body * 2 ^ (N - nbits)

/-! ## The class `Posit` -/

/-- A posit value: the packed bits `mBits` (left-justified in the storage
word), the format `mNbits`, `mEs`, and the NaN side flag `mNan`. -/
structure Posit where
  mBits : Nat
  mNbits : Nat
  mEs : Nat
  mNan : Bool
  deriving DecidableEq, Repr

namespace Posit

/-- Method `Posit::isZero`. -/
def isZero (x : Posit) : Bool := util_is_zero x.mBits

/-- Method `Posit::isOne`. -/
def isOne (N : Nat) (x : Posit) : Bool := util_is_one N x.mBits

/-- Method `Posit::isInf`. -/
def isInf (N : Nat) (x : Posit) : Bool := util_is_inf N x.mBits

/-- Method `Posit::isNeg`. -/
def isNeg (N : Nat) (x : Posit) : Bool := util_is_neg N x.mBits

/-- Method `Posit::isNan`. -/
def isNan (x : Posit) : Bool := x.mNan

/-- Method `Posit::zero`. -/
def zero (x : Posit) : Posit := ⟨POSIT_ZERO, x.mNbits, x.mEs, false⟩

/-- Method `Posit::one`. -/
def one (N : Nat) (x : Posit) : Posit := ⟨POSIT_ONE N, x.mNbits, x.mEs, false⟩

/-- Method `Posit::inf`. -/
def inf (N : Nat) (x : Posit) : Posit := ⟨POSIT_INF N, x.mNbits, x.mEs, false⟩

/-- Method `Posit::nan`: the constructor `Posit(nbits, es, nan)` stores zero bits. -/
def nan (x : Posit) : Posit := ⟨0, x.mNbits, x.mEs, true⟩

/-- Method `Posit::neg`. -/
def neg (N : Nat) (x : Posit) : Posit :=
  ⟨util_neg N x.mBits x.mNbits, x.mNbits, x.mEs, false⟩

/-- Method `Posit::rec` (the name `rec` is taken by the recursor of the structure). -/
def rec_ (N : Nat) (x : Posit) : Posit :=
  ⟨util_rec N x.mBits x.mNbits x.mEs, x.mNbits, x.mEs, false⟩

/-- Method `Posit::eq`. -/
def eq (x p : Posit) : Bool := x.mBits == p.mBits

/-- Method `Posit::add`. -/
def add (N : Nat) (x p : Posit) : Posit :=
  if x.isZero then p
  else if p.isZero then x
  else if x.isInf N && p.isInf N then x.nan
  else if x.isInf N || p.isInf N then x.inf N
  else if (x.neg N).eq p then x.zero
  else x

/-- Method `Posit::sub`. -/
def sub (N : Nat) (x p : Posit) : Posit :=
  let np := p.neg N
  x.add N np

/-- The general path of `Posit::mul` (what follows the fast exits). -/
def mulGeneral (N : Nat) (x p : Posit) : Posit :=
  let xup := unpack_posit N x.mBits x.mNbits x.mEs
  let pup := unpack_posit N p.mBits p.mNbits p.mEs
  let xfexp : Int := toInt32 (POW2 x.mEs * xup.reg + xup.exp)
  let pfexp : Int := toInt32 (POW2 p.mEs * pup.reg + pup.exp)
  let xfrac : Nat := POSIT_MSB N ||| (xup.frac >>> 1)
  let pfrac : Nat := POSIT_MSB N ||| (pup.frac >>> 1)
  let mfrac : Nat := (xfrac * pfrac % 2 ^ (2 * N)) >>> N % 2 ^ N
  let shift : Nat := CLZ N mfrac
  let rminfexp : Int := toInt32 (POW2 x.mEs * (-(x.mNbits : Int) + 2))
  let rmaxfexp : Int := toInt32 (POW2 x.mEs * ((x.mNbits : Int) - 2))
  let rfexp : Int := min (max (toInt32 (xfexp + pfexp - shift + 1)) rminfexp) rmaxfexp
  let reg : Int := rfexp >>> x.mEs
  let exp : Int := toInt32 (rfexp - POW2 x.mEs * reg)
  let frac : Nat := mfrac <<< (shift + 1) % 2 ^ N
  ⟨pack_posit N ⟨xor (x.isNeg N) (p.isNeg N), reg, exp.toNat, frac⟩ x.mNbits x.mEs,
    x.mNbits, x.mEs, false⟩

/-- Method `Posit::mul`. -/
def mul (N : Nat) (x p : Posit) : Posit :=
  if x.isZero then (if p.isInf N then x.nan else x.zero)
  else if p.isZero then (if x.isInf N then x.nan else x.zero)
  else if x.isOne N then (if x.isNeg N then p.neg N else p)
  else if p.isOne N then (if p.isNeg N then x.neg N else x)
  else if x.isInf N || p.isInf N then x.inf N
  else if (x.rec_ N).eq p then x.one N
  else if ((x.rec_ N).neg N).eq p then (x.one N).neg N
  else mulGeneral N x p

/-- Method `Posit::div`. -/
def div (N : Nat) (x p : Posit) : Posit :=
  let rp := p.rec_ N
  x.mul N rp

/-- Method `Posit::gt`. -/
def gt (N : Nat) (x p : Posit) : Bool :=
  if x.isInf N || p.isInf N then false
  else decide (x.mBits > p.mBits)

/-- Method `Posit::ge`. -/
def ge (N : Nat) (x p : Posit) : Bool := x.gt N p || x.eq p

/-- Method `Posit::lt`. -/
def lt (N : Nat) (x p : Posit) : Bool := !x.gt N p && !x.eq p

/-- Method `Posit::le`. -/
def le (N : Nat) (x p : Posit) : Bool := !x.gt N p

/-- Significand of `Posit::mul`: the stored fraction with its hidden bit,
`POSIT_MSB | (frac >> 1)`. -/
def mulSig (N frac : Nat) : Nat := POSIT_MSB N ||| (frac >>> 1)

/-- Product fraction `mfrac` of `Posit::mul`: the top storage word of the
double-width product of the two significands. -/
def mulMfrac (N fx fp : Nat) : Nat :=
  (mulSig N fx * mulSig N fp % 2 ^ (2 * N)) >>> N % 2 ^ N

/-- Normalisation shift of `Posit::mul`: the count `CLZ(mfrac)`. -/
def mulShift (N fx fp : Nat) : Nat := CLZ N (mulMfrac N fx fp)

/-- Output fraction of `Posit::mul`: `mfrac << (shift + 1)`, cut to the
storage word. -/
def mulFrac (N fx fp : Nat) : Nat :=
  mulMfrac N fx fp <<< (mulShift N fx fp + 1) % 2 ^ N

/-- The clipped exponent `rfexp` of `Posit::fromIeee` and `Posit::mul`:
`MIN(MAX(e, rminfexp), rmaxfexp)` with `rminfexp = POW2(es) * (-nbits + 2)`
and `rmaxfexp = POW2(es) * (nbits - 2)`. The expression `e` and the two
bounds are `int`s, so each of them is taken modulo `2 ^ 32`. -/
def clipExp (nbits es : Nat) (e : Int) : Int :=
  let rminfexp : Int := toInt32 (POW2 es * (-(nbits : Int) + 2))
  let rmaxfexp : Int := toInt32 (POW2 es * ((nbits : Int) - 2))
  min (max (toInt32 e) rminfexp) rmaxfexp

/-- The clipped exponent `rfexp` of the general path of `Posit::mul`: the
clip of `xfexp + pfexp - shift + 1`. -/
def mulExp (N : Nat) (x p : Posit) : Int :=
  let xup := unpack_posit N x.mBits x.mNbits x.mEs
  let pup := unpack_posit N p.mBits p.mNbits p.mEs
  let xfexp : Int := toInt32 (POW2 x.mEs * xup.reg + xup.exp)
  let pfexp : Int := toInt32 (POW2 p.mEs * pup.reg + pup.exp)
  let shift : Nat := mulShift N xup.frac pup.frac
  clipExp x.mNbits x.mEs (xfexp + pfexp - shift + 1)

/-- The record `up` that the general path of `Posit::mul` hands to
`pack_posit`. -/
def mulRecord (N : Nat) (x p : Posit) : unpkd_posit_t :=
  let xup := unpack_posit N x.mBits x.mNbits x.mEs
  let pup := unpack_posit N p.mBits p.mNbits p.mEs
  let rfexp : Int := mulExp N x p
  let reg : Int := rfexp >>> x.mEs
  let exp : Int := toInt32 (rfexp - POW2 x.mEs * reg)
  ⟨xor (x.isNeg N) (p.isNeg N), reg, exp.toNat, mulFrac N xup.frac pup.frac⟩

/-- Conversion of an `int` to `int16_t`: the value modulo `2 ^ 16`, read as
signed. -/
def toInt16 (v : Int) : Int := (v + 2 ^ 15) % 2 ^ 16 - 2 ^ 15

/-- The exponent field `fexp` that `Posit::fromIeee` reads from the word
`fbits` (a `uint64_t`): `(fbits >> ffs) & ((1 << fes) - 1)`, stored in an
`int16_t`. -/
def ieeeExp (fbits fes ffs : Nat) : Int :=
  toInt16 (((fbits >>> ffs) &&& ((1 <<< fes) - 1) : Nat) : Int)

/-- The clipped exponent `rfexp` of `Posit::fromIeee`: the clip of
`fexp - fexpbias` with `fexpbias = POW2(fes - 1) - 1` (both callers pass
`fes ≥ 1`: 8 and 11). -/
def fromIeeeExp (x : Posit) (fbits fes ffs : Nat) : Int :=
  let fexpbias : Int := toInt32 (POW2 (fes - 1) - 1)
  clipExp x.mNbits x.mEs (ieeeExp fbits fes ffs - fexpbias)

/-- The record `up` that `Posit::fromIeee` hands to `pack_posit`; `fes` and
`ffs` are the widths of the IEEE exponent and fraction fields. -/
def fromIeeeRecord (N : Nat) (x : Posit) (fbits fes ffs : Nat) : unpkd_posit_t :=
  let ffrac : Nat := fbits &&& ((1 <<< ffs) % 2 ^ 64 - 1)
  let rfexp : Int := fromIeeeExp x fbits fes ffs
  let reg : Int := rfexp >>> x.mEs
  let exp : Int := toInt32 (rfexp - POW2 x.mEs * reg)
  let frac : Nat :=
    if ffs ≤ N then ffrac <<< (N - ffs) % 2 ^ 64 % 2 ^ N else ffrac >>> (ffs - N) % 2 ^ N
  ⟨decide (fbits >>> (fes + ffs) ≠ 0), reg, exp.toNat, frac⟩

/-- Method `Posit::fromIeee`: the record is packed into `mBits`. -/
def fromIeee (N : Nat) (x : Posit) (fbits fes ffs : Nat) : Posit :=
  { x with mBits := pack_posit N (fromIeeeRecord N x fbits fes ffs) x.mNbits x.mEs }

/-- Method `Posit::setBits`: the bits are shifted to the top of the storage
word. -/
def setBits (N : Nat) (x : Posit) (bits : Nat) : Posit :=
  { x with mBits := bits <<< (N - x.mNbits) % 2 ^ N }

/-- Method `Posit::getBits`. -/
def getBits (N : Nat) (x : Posit) : Nat := x.mBits >>> (N - x.mNbits)

end Posit

/-- The class that `fpclassify` gives a `float` or `double`, with the raw bits
of a normal number. -/
inductive FpClass where
  | infinite
  | nan
  | zero
  | subnormal
  | normal (bits : Nat)
  deriving DecidableEq, Repr

/-- What `Posit::getFloat` and `Posit::getDouble` return, by the branch taken:
zero, `1 / 0`, `0 / 0`, or `pack_float` / `pack_double` (of `pack.h`, absent)
applied to the unpacked record and `mEs`. -/
inductive IeeeValue where
  | zero
  | inf
  | nan
  | packed (up : unpkd_posit_t) (es : Nat)
  deriving DecidableEq, Repr

namespace Posit

/-- Method `Posit::set(float)`, on the class of its argument. -/
def setFloat (N : Nat) (x : Posit) : FpClass → Posit
  | .infinite => { x with mBits := POSIT_INF N, mNan := false }
  | .nan => { x with mNan := true }
  | .zero => { x with mBits := POSIT_ZERO, mNan := false }
  | .subnormal => { x with mBits := POSIT_ZERO, mNan := false }
  | .normal bits => { fromIeee N x bits 8 23 with mNan := false }

/-- Method `Posit::set(double)`, on the class of its argument. -/
def setDouble (N : Nat) (x : Posit) : FpClass → Posit
  | .infinite => { x with mBits := POSIT_INF N, mNan := false }
  | .nan => { x with mNan := true }
  | .zero => { x with mBits := POSIT_ZERO, mNan := false }
  | .subnormal => { x with mBits := POSIT_ZERO, mNan := false }
  | .normal bits => { fromIeee N x bits 11 52 with mNan := false }

/-- Method `Posit::getFloat`. -/
def getFloat (N : Nat) (x : Posit) : IeeeValue :=
  if x.isZero then .zero
  else if x.isInf N then .inf
  else if x.isNan then .nan
  else .packed (unpack_posit N x.mBits x.mNbits x.mEs) x.mEs

/-- Method `Posit::getDouble`. -/
def getDouble (N : Nat) (x : Posit) : IeeeValue :=
  if x.isZero then .zero
  else if x.isInf N then .inf
  else if x.isNan then .nan
  else .packed (unpack_posit N x.mBits x.mNbits x.mEs) x.mEs

end Posit

/-- The data-model invariant of a packed word of a format: it fits the
storage word and is left-justified (the low `N - nbits` bits are zero). -/
def LeftJustified (N nbits b : Nat) : Prop := b < 2 ^ N ∧ b % 2 ^ (N - nbits) = 0

instance (N nbits b : Nat) : Decidable (LeftJustified N nbits b) := by
  unfold LeftJustified; infer_instance

/-! ## Facts about the constants and the helpers -/

theorem pow_pred_lt (N : Nat) (h : 2 ≤ N) : 2 ^ (N - 2) < 2 ^ (N - 1) :=
  Nat.pow_lt_pow_right (by decide) (by omega)

theorem pow_pred_double (N : Nat) (h : 1 ≤ N) : 2 ^ (N - 1) + 2 ^ (N - 1) = 2 ^ N := by
  obtain ⟨n, rfl⟩ : ∃ n, N = n + 1 := ⟨N - 1, by omega⟩
  simp only [Nat.add_sub_cancel, pow_succ]
  omega

theorem posit_one_ne_zero (N : Nat) : POSIT_ONE N ≠ 0 := by
  unfold POSIT_ONE; positivity

theorem posit_one_ne_inf (N : Nat) (h : 2 ≤ N) : POSIT_ONE N ≠ POSIT_INF N := by
  have := pow_pred_lt N h
  unfold POSIT_ONE POSIT_INF; omega

theorem posit_inf_ne_zero (N : Nat) : POSIT_INF N ≠ 0 := by
  unfold POSIT_INF; positivity

theorem one_not_neg (N : Nat) (h : 2 ≤ N) : util_is_neg N (POSIT_ONE N) = false := by
  have := pow_pred_lt N h
  simp [util_is_neg, bitAt, POSIT_ONE, Nat.div_eq_of_lt this]

theorem mone_is_neg (N : Nat) (h : 2 ≤ N) :
    util_is_neg N (2 ^ N - POSIT_ONE N) = true := by
  have h1 := pow_pred_lt N h
  have h2 := pow_pred_double N (by omega)
  have h3 : 0 < 2 ^ (N - 2) := by positivity
  have h4 : (2 ^ N - 2 ^ (N - 2)) / 2 ^ (N - 1) = 1 := by
    apply Nat.div_eq_of_lt_le <;> omega
  simp [util_is_neg, bitAt, POSIT_ONE, h4]

/-- On a left-justified word the windowed negation is the two's complement of
the whole storage word. -/
theorem util_neg_eq (N nbits b : Nat) (hn : nbits ≤ N) (hb : LeftJustified N nbits b) :
    util_neg N b nbits = (2 ^ N - b) % 2 ^ N := by
  obtain ⟨hlt, hmod⟩ := hb
  have hsplit : 2 ^ N = 2 ^ nbits * 2 ^ (N - nbits) := by
    rw [← pow_add]; congr 1; omega
  obtain ⟨c, hc⟩ := Nat.dvd_of_mod_eq_zero hmod
  have hs : 0 < 2 ^ (N - nbits) := by positivity
  have hcdiv : b / 2 ^ (N - nbits) = c := by
    rw [hc]; exact Nat.mul_div_cancel_left c hs
  have hclt : c < 2 ^ nbits := by
    rw [hc, hsplit, mul_comm] at hlt
    exact Nat.lt_of_mul_lt_mul_right hlt
  unfold util_neg
  rw [hcdiv, Nat.mod_eq_of_lt hclt]
  rcases Nat.eq_zero_or_pos c with h0 | hpos
  · subst h0; simp [hc]
  · have h1 : 2 ^ nbits - c < 2 ^ nbits := by omega
    rw [Nat.mod_eq_of_lt h1]
    have h2 : 2 ^ N - b < 2 ^ N := by
      have : 0 < b := by rw [hc]; positivity
      omega
    rw [Nat.mod_eq_of_lt h2, hsplit, hc, Nat.sub_mul, mul_comm c]

theorem leftJustified_pow (N nbits k : Nat) (hk : k < N) (hs : N - nbits ≤ k) :
    LeftJustified N nbits (2 ^ k) := by
  refine ⟨Nat.pow_lt_pow_right (by decide) hk, ?_⟩
  exact Nat.mod_eq_zero_of_dvd (pow_dvd_pow 2 hs)

theorem util_neg_one (N nbits : Nat) (hN : nbits ≤ N) (hn : 2 ≤ nbits) :
    util_neg N (POSIT_ONE N) nbits = 2 ^ N - POSIT_ONE N := by
  have hlj : LeftJustified N nbits (POSIT_ONE N) :=
    leftJustified_pow N nbits (N - 2) (by omega) (by omega)
  rw [util_neg_eq N nbits _ hN hlj]
  apply Nat.mod_eq_of_lt
  have : 0 < POSIT_ONE N := Nat.pos_of_ne_zero (posit_one_ne_zero N)
  have : 0 < 2 ^ N := by positivity
  omega

theorem util_neg_inf (N nbits : Nat) (hN : nbits ≤ N) (hn : 1 ≤ nbits) :
    util_neg N (POSIT_INF N) nbits = POSIT_INF N := by
  have hlj : LeftJustified N nbits (POSIT_INF N) :=
    leftJustified_pow N nbits (N - 1) (by omega) (by omega)
  rw [util_neg_eq N nbits _ hN hlj]
  have h2 := pow_pred_double N (by omega)
  have h3 : 0 < 2 ^ (N - 1) := by positivity
  unfold POSIT_INF
  rw [Nat.mod_eq_of_lt (by omega)]
  omega

theorem util_neg_zero (N nbits : Nat) : util_neg N 0 nbits = 0 := by
  simp [util_neg]

theorem leftJustified_util_neg (N nbits p : Nat) (hn : nbits ≤ N) :
    LeftJustified N nbits (util_neg N p nbits) := by
  have hsplit : 2 ^ N = 2 ^ nbits * 2 ^ (N - nbits) := by
    rw [← pow_add]; congr 1; omega
  have hs : 0 < 2 ^ (N - nbits) := by positivity
  have hm : (2 ^ nbits - p / 2 ^ (N - nbits) % 2 ^ nbits) % 2 ^ nbits < 2 ^ nbits :=
    Nat.mod_lt _ (by positivity)
  unfold util_neg
  refine ⟨?_, ?_⟩
  · rw [hsplit]
    exact Nat.mul_lt_mul_of_pos_right hm hs
  · exact Nat.mul_mod_left _ _

/-- The windowed negation of a left-justified word, without the modulus. -/
theorem util_neg_cases (N nbits b : Nat) (hn : nbits ≤ N) (hb : LeftJustified N nbits b) :
    util_neg N b nbits = if b = 0 then 0 else 2 ^ N - b := by
  rw [util_neg_eq N nbits b hn hb]
  have hlt := hb.1
  split
  · next h => subst h; simp
  · next h => exact Nat.mod_eq_of_lt (by omega)

theorem util_neg_neg (N nbits b : Nat) (hn : nbits ≤ N) (hb : LeftJustified N nbits b) :
    util_neg N (util_neg N b nbits) nbits = b := by
  have h1 := util_neg_cases N nbits b hn hb
  have h2 := util_neg_cases N nbits _ hn (leftJustified_util_neg N nbits b hn)
  have hlt := hb.1
  rw [h2, h1]
  split_ifs <;> omega

theorem leftJustified_util_rec (N nbits es p : Nat) (hn : nbits ≤ N) (h1 : 1 ≤ nbits) :
    LeftJustified N nbits (util_rec N p nbits es) := by
  obtain ⟨-, hmod⟩ := leftJustified_util_neg N nbits p hn
  unfold util_rec POSIT_MSB
  refine ⟨Nat.mod_lt _ (by positivity), ?_⟩
  apply Nat.mod_eq_zero_of_dvd
  have hM : 2 ^ (N - nbits) ∣ 2 ^ N := pow_dvd_pow 2 (by omega)
  have hH : 2 ^ (N - nbits) ∣ 2 ^ (N - 1) := pow_dvd_pow 2 (by omega)
  exact (Nat.dvd_mod_iff hM).2 (Nat.dvd_add (Nat.dvd_of_mod_eq_zero hmod) hH)

/-- The closed-form reciprocal of a left-justified word, without the
modulus: the word is reflected about the top bit. -/
theorem util_rec_cases (N nbits es b : Nat) (hn : nbits ≤ N) (h1 : 1 ≤ nbits)
    (hb : LeftJustified N nbits b) :
    util_rec N b nbits es
      = if b ≤ 2 ^ (N - 1) then 2 ^ (N - 1) - b else 2 ^ (N - 1) + 2 ^ N - b := by
  have h2 := pow_pred_double N (by omega)
  have h3 : 0 < 2 ^ (N - 1) := by positivity
  have hlt := hb.1
  unfold util_rec POSIT_MSB
  rw [util_neg_cases N nbits b hn hb]
  by_cases h0 : b = 0
  · subst h0
    simp only [if_true, Nat.zero_add, Nat.zero_le, Nat.sub_zero]
    exact Nat.mod_eq_of_lt (by omega)
  · rw [if_neg h0]
    by_cases hle : b ≤ 2 ^ (N - 1)
    · rw [if_pos hle]
      have : 2 ^ N - b + 2 ^ (N - 1) = (2 ^ (N - 1) - b) + 2 ^ N := by omega
      rw [this, Nat.add_mod_right]
      exact Nat.mod_eq_of_lt (by omega)
    · rw [if_neg hle]
      have : 2 ^ N - b + 2 ^ (N - 1) = 2 ^ (N - 1) + 2 ^ N - b := by omega
      rw [this]
      exact Nat.mod_eq_of_lt (by omega)

/-- The reciprocal test of `mul` is symmetric in its operands. -/
theorem util_rec_eq_symm (N nbits es a b : Nat) (hn : nbits ≤ N) (h1 : 1 ≤ nbits)
    (ha : LeftJustified N nbits a) (hb : LeftJustified N nbits b) :
    util_rec N a nbits es = b ↔ util_rec N b nbits es = a := by
  have h2 := pow_pred_double N (by omega)
  have hal := ha.1
  have hbl := hb.1
  rw [util_rec_cases N nbits es a hn h1 ha, util_rec_cases N nbits es b hn h1 hb]
  split_ifs <;> omega

/-- The negated-reciprocal test of `mul` is symmetric in its operands. -/
theorem util_neg_rec_eq_symm (N nbits es a b : Nat) (hn : nbits ≤ N) (h1 : 1 ≤ nbits)
    (ha : LeftJustified N nbits a) (hb : LeftJustified N nbits b) :
    util_neg N (util_rec N a nbits es) nbits = b
      ↔ util_neg N (util_rec N b nbits es) nbits = a := by
  have h2 := pow_pred_double N (by omega)
  have hal := ha.1
  have hbl := hb.1
  rw [util_neg_cases N nbits _ hn (leftJustified_util_rec N nbits es a hn h1),
    util_neg_cases N nbits _ hn (leftJustified_util_rec N nbits es b hn h1),
    util_rec_cases N nbits es a hn h1 ha, util_rec_cases N nbits es b hn h1 hb]
  split_ifs <;> omega

/-- The general path of `mul` is symmetric in its operands when their
formats agree. -/
theorem mulGeneral_comm (N : Nat) (x y : Posit) (hnb : x.mNbits = y.mNbits)
    (hes : x.mEs = y.mEs) : Posit.mulGeneral N x y = Posit.mulGeneral N y x := by
  simp only [Posit.mulGeneral, hnb, hes, Nat.mul_comm, Int.add_comm, Bool.xor_comm]

/-! ## Facts about runs of bits and the codec -/

theorem runLen_le (v : Bool) (x : Nat) : ∀ k, runLen v x k ≤ k
  | 0 => Nat.le_refl 0
  | k + 1 => by
    have ih := runLen_le v x k
    unfold runLen
    split <;> omega

/-- The low `k + 1` bits of a word are bit `k` on top of the low `k` bits. -/
theorem mod_pow_succ_bitAt (x k : Nat) :
    x % 2 ^ (k + 1) = (if bitAt x k then 1 else 0) * 2 ^ k + x % 2 ^ k := by
  rw [pow_succ, Nat.mod_mul]
  unfold bitAt
  rcases Nat.mod_two_eq_zero_or_one (x / 2 ^ k) with h | h <;> simp [h, Nat.add_comm]

/-- The bits of the run, read as a number: all ones for a run of ones, zero
for a run of zeros. -/
theorem runLen_top (v : Bool) (x : Nat) :
    ∀ k, x % 2 ^ k / 2 ^ (k - runLen v x k) = if v then 2 ^ runLen v x k - 1 else 0
  | 0 => by simp [runLen, Nat.mod_one]
  | k + 1 => by
    have ih := runLen_top v x k
    have hle := runLen_le v x k
    unfold runLen
    split
    · next hbit =>
      have hidx : k + 1 - (runLen v x k + 1) = k - runLen v x k := by omega
      have hpow : 2 ^ k = 2 ^ runLen v x k * 2 ^ (k - runLen v x k) := by
        rw [← pow_add]; congr 1; omega
      have hpos : 0 < 2 ^ (k - runLen v x k) := by positivity
      have hsum : (if v then 1 else 0) * 2 ^ k + x % 2 ^ k
          = x % 2 ^ k + (if v then 1 else 0) * 2 ^ runLen v x k * 2 ^ (k - runLen v x k) := by
        rw [Nat.mul_assoc, ← hpow, Nat.add_comm]
      rw [hidx, mod_pow_succ_bitAt, hbit, hsum, Nat.add_mul_div_right _ _ hpos, ih]
      have h1 : 0 < 2 ^ runLen v x k := by positivity
      cases v
      · simp
      · simp only [if_true, pow_succ]
        omega
    · next hbit =>
      have hlt : x % 2 ^ (k + 1) < 2 ^ (k + 1) := Nat.mod_lt _ (by positivity)
      simp only [Nat.sub_zero, pow_zero, Nat.sub_self, ite_self]
      exact Nat.div_eq_of_lt hlt

/-- A run that stops before the end of the field is stopped by the opposite
bit. -/
theorem runLen_term (v : Bool) (x : Nat) :
    ∀ k, runLen v x k < k → bitAt x (k - runLen v x k - 1) = !v
  | 0 => by simp
  | k + 1 => by
    have ih := runLen_term v x k
    unfold runLen
    split
    · next hbit =>
      intro h
      have hidx : k + 1 - (runLen v x k + 1) - 1 = k - runLen v x k - 1 := by omega
      rw [hidx]
      exact ih (by omega)
    · next hbit =>
      intro _
      simp only [Nat.sub_zero, Nat.add_sub_cancel]
      cases v <;> cases hb : bitAt x k <;> simp_all

/-- A field splits into its run and what lies below the run. -/
theorem runLen_split (v : Bool) (x k : Nat) :
    x % 2 ^ k = (if v then 2 ^ runLen v x k - 1 else 0) * 2 ^ (k - runLen v x k)
      + x % 2 ^ (k - runLen v x k) := by
  have hdvd : 2 ^ (k - runLen v x k) ∣ 2 ^ k := pow_dvd_pow 2 (Nat.sub_le _ _)
  rw [← runLen_top v x k, ← Nat.mod_mod_of_dvd x hdvd]
  exact (Nat.div_add_mod' _ _).symm

/-- What `pack_posit` writes below the regime run from the fields that
`unpack_posit` reads: a terminator `c`, an exponent field `e` of `ew` bits
extended to `es` bits, and a fraction field `f` of `fw` bits left-justified
in the storage word, cut to `ew + fw + 1` bits. -/
theorem pack_tail (N es ew fw c e f : Nat) (hew : ew ≤ es) (hfw : fw ≤ N)
    (hcut : ew < es → fw = 0) (hf : f < 2 ^ fw) :
    (c * 2 ^ (es + N) + e * 2 ^ (es - ew) * 2 ^ N + f * 2 ^ (N - fw))
        / 2 ^ (1 + es + N - (ew + fw + 1))
      = c * 2 ^ (ew + fw) + e * 2 ^ fw + f := by
  have hD : 1 + es + N - (ew + fw + 1) = (es - ew) + (N - fw) := by omega
  have hpos : 0 < 2 ^ ((es - ew) + (N - fw)) := by positivity
  have h1 : 2 ^ (es + N) = 2 ^ (ew + fw) * 2 ^ ((es - ew) + (N - fw)) := by
    rw [← pow_add]; congr 1; omega
  have h2 : 2 ^ (es - ew) * 2 ^ N = 2 ^ fw * 2 ^ ((es - ew) + (N - fw)) := by
    rw [← pow_add, ← pow_add]; congr 1; omega
  have h3 : f * 2 ^ (N - fw) = f * 2 ^ ((es - ew) + (N - fw)) := by
    rcases Nat.lt_or_ge ew es with h | h
    · have := hcut h
      subst this
      have : f = 0 := by simpa using hf
      simp [this]
    · have : es - ew = 0 := by omega
      rw [this, Nat.zero_add]
  rw [hD, Nat.mul_assoc e, h1, h2, h3, ← Nat.mul_assoc, ← Nat.mul_assoc, ← Nat.add_mul,
    ← Nat.add_mul]
  exact Nat.mul_div_cancel _ hpos

/-- The word that `pack_posit` builds from a record whose regime stands for
a run of `m` bits `v`, in a format of `k + 2` bits. -/
theorem pack_fields (N k es m : Nat) (v s : Bool) (e f : Nat) (hm1 : 1 ≤ m)
    (hmk : m ≤ k + 1) :
    pack_posit N ⟨s, if v then (m : Int) - 1 else -(m : Int), e, f⟩ (k + 2) es
      = ((if s then 1 else 0) * 2 ^ (k + 1) + (if v then 2 ^ m - 1 else 0) * 2 ^ (k + 1 - m)
          + ((if v then 0 else 1) * 2 ^ (es + N) + e % 2 ^ es * 2 ^ N + f % 2 ^ N)
            / 2 ^ (1 + es + N - (k + 1 - m))) * 2 ^ (N - (k + 2)) := by
  have hk1 : k + 2 - 1 = k + 1 := rfl
  cases v
  · have hneg : ¬ (0 : Int) ≤ -(m : Int) := by omega
    have hnat : (- -(m : Int)).toNat = m := by omega
    simp only [pack_posit, Bool.false_eq_true, if_false, hneg, hnat, hk1, Nat.min_eq_left hmk]
  · have hpos : (0 : Int) ≤ (m : Int) - 1 := by omega
    have hnat : ((m : Int) - 1 + 1).toNat = m := by omega
    simp only [pack_posit, if_true, hpos, hnat, hk1, Nat.min_eq_left hmk]

/-- Round trip of the codec in the `nbits`-wide view, for `nbits = k + 2`. -/
theorem pack_unpack_view (N k es B : Nat) (hk : k + 2 ≤ N) (hB : B < 2 ^ (k + 2)) :
    pack_posit N (unpack_posit N (B * 2 ^ (N - (k + 2))) (k + 2) es) (k + 2) es
      = B * 2 ^ (N - (k + 2)) := by
  have hs : 0 < 2 ^ (N - (k + 2)) := by positivity
  have hdiv : B * 2 ^ (N - (k + 2)) / 2 ^ (N - (k + 2)) = B := Nat.mul_div_cancel _ hs
  have hm1 : 1 ≤ runLen (bitAt B k) B (k + 1) := by
    rw [runLen, if_pos rfl]; omega
  have hmle := runLen_le (bitAt B k) B (k + 1)
  have hsplit := runLen_split (bitAt B k) B (k + 1)
  have hterm := runLen_term (bitAt B k) B (k + 1)
  have hsign := mod_pow_succ_bitAt B (k + 1)
  rw [Nat.mod_eq_of_lt (show B < 2 ^ (k + 1 + 1) from hB)] at hsign
  simp only [unpack_posit, util_rs, util_es, util_fs, util_ss, hdiv,
    show k + 2 - 1 = k + 1 from rfl, show k + 2 - 2 = k from rfl, Nat.add_sub_cancel]
  generalize bitAt B k = v at *
  generalize runLen v B (k + 1) = m at *
  rw [pack_fields N k es m v _ _ _ hm1 hmle]
  congr 1
  -- the exponent and fraction fields
  have hew : min es (k - m) ≤ es := Nat.min_le_left _ _
  have hewq : min es (k - m) ≤ k - m := Nat.min_le_right _ _
  generalize hewdef : min es (k - m) = ew at *
  generalize hfwdef : k - m - ew = fw at *
  have hE : B / 2 ^ fw % 2 ^ ew < 2 ^ ew := Nat.mod_lt _ (by positivity)
  have hF : B % 2 ^ fw < 2 ^ fw := Nat.mod_lt _ (by positivity)
  have hfwN : fw ≤ N := by omega
  have hexp : B / 2 ^ fw % 2 ^ ew * 2 ^ (es - ew) % 2 ^ es
      = B / 2 ^ fw % 2 ^ ew * 2 ^ (es - ew) := by
    apply Nat.mod_eq_of_lt
    have : 2 ^ es = 2 ^ ew * 2 ^ (es - ew) := by rw [← pow_add]; congr 1; omega
    rw [this]
    exact Nat.mul_lt_mul_of_pos_right hE (by positivity)
  have hfrac : B % 2 ^ fw * 2 ^ (N - fw) % 2 ^ N % 2 ^ N = B % 2 ^ fw * 2 ^ (N - fw) := by
    rw [Nat.mod_mod]
    apply Nat.mod_eq_of_lt
    have : 2 ^ N = 2 ^ fw * 2 ^ (N - fw) := by rw [← pow_add]; congr 1; omega
    rw [this]
    exact Nat.mul_lt_mul_of_pos_right hF (by positivity)
  rw [hexp, hfrac]
  rcases Nat.lt_or_ge m (k + 1) with hlt | hge
  · -- the run is terminated inside the field
    have hcut : ew < es → fw = 0 := by
      intro h
      have : ew = k - m := by
        rcases Nat.le_total es (k - m) with h' | h'
        · rw [Nat.min_eq_left h'] at hewdef; omega
        · rw [Nat.min_eq_right h'] at hewdef; omega
      omega
    have hidx : k + 1 - m = ew + fw + 1 := by omega
    have hbit : bitAt B (ew + fw) = !v := by
      have := hterm hlt
      rwa [show k + 1 - m - 1 = ew + fw by omega] at this
    have hlow := mod_pow_succ_bitAt B (ew + fw)
    have hfields : B % 2 ^ (ew + fw) = B % 2 ^ fw + 2 ^ fw * (B / 2 ^ fw % 2 ^ ew) := by
      rw [Nat.add_comm, pow_add, Nat.mod_mul]
    rw [hidx, pack_tail N es ew fw _ _ _ hew hfwN hcut hF]
    rw [hidx, hlow, hbit, hfields] at hsplit
    cases v <;> simp only [Bool.not_false, Bool.not_true, if_true, if_false,
      Bool.false_eq_true] at hsplit ⊢ <;> conv_rhs => rw [hsign, hsplit]
    all_goals ring
  · -- the run fills the field
    have hmeq : m = k + 1 := by omega
    subst hmeq
    have hfw0 : fw = 0 := by omega
    have hew0 : ew = 0 := by omega
    subst hfw0 hew0
    have htail : ((if v then 0 else 1) * 2 ^ (es + N)
        + B / 2 ^ 0 % 2 ^ 0 * 2 ^ (es - 0) * 2 ^ N + B % 2 ^ 0 * 2 ^ (N - 0))
          / 2 ^ (1 + es + N - (k + 1 - (k + 1))) = 0 := by
      apply Nat.div_eq_of_lt
      have h1 : 2 ^ (1 + es + N - (k + 1 - (k + 1))) = 2 * 2 ^ (es + N) := by
        rw [Nat.sub_self, Nat.sub_zero, Nat.add_assoc, Nat.add_comm 1, pow_succ]; ring
      have h2 : 0 < 2 ^ (es + N) := by positivity
      rw [h1]
      cases v <;> simp [Nat.mod_one]
    rw [htail]
    simp only [Nat.sub_self, pow_zero, Nat.mod_one, Nat.mul_one, Nat.add_zero] at hsplit ⊢
    conv_rhs => rw [hsign, hsplit]

theorem mone_ne_inf (N : Nat) (h : 2 ≤ N) : 2 ^ N - POSIT_ONE N ≠ POSIT_INF N := by
  have h1 := pow_pred_lt N h
  have h2 := pow_pred_double N (by omega)
  unfold POSIT_ONE POSIT_INF
  omega

/-- A value that is one, plus or minus, is not infinite. -/
theorem isOne_not_isInf (N : Nat) (h : 2 ≤ N) (z : Posit) (hz : z.isOne N = true) :
    z.isInf N = false := by
  have hc : z.mBits = POSIT_ONE N ∨ z.mBits = 2 ^ N - POSIT_ONE N := by
    simpa [Posit.isOne, util_is_one] using hz
  rcases hc with hb | hb
  · simp [Posit.isInf, util_is_inf, hb, posit_one_ne_inf N h]
  · simp [Posit.isInf, util_is_inf, hb, mone_ne_inf N h]

/-- A value that is zero is not infinite. -/
theorem isZero_not_isInf (N : Nat) (z : Posit) (hz : z.isZero = true) :
    z.isInf N = false := by
  have hb : z.mBits = 0 := by simpa [Posit.isZero, util_is_zero, POSIT_ZERO] using hz
  simp [Posit.isInf, util_is_inf, hb, (posit_inf_ne_zero N).symm]

theorem isInf_bits (N : Nat) (z : Posit) (hz : z.isInf N = true) : z.mBits = POSIT_INF N := by
  simpa [Posit.isInf, util_is_inf] using hz

/-- The general path of `mul` packs the record `mulRecord`. -/
theorem mulGeneral_eq_pack (N : Nat) (x p : Posit) :
    Posit.mulGeneral N x p
      = ⟨pack_posit N (Posit.mulRecord N x p) x.mNbits x.mEs, x.mNbits, x.mEs, false⟩ :=
  rfl

/-- C1. Multiplicative identity: for every value `x` of a format with
`2 ≤ nbits ≤ POSIT_SIZE` (zero, infinity, plus and minus one and general
values included), `mul(x, one())` and `mul(one(), x)` both return a value
whose packed bits are those of `x`, so that `eq(result, x)` is true. -/
theorem C1_mul_one_identity (N : Nat) (x : Posit) (hN : x.mNbits ≤ N) (hn : 2 ≤ x.mNbits) :
    (x.mul N (x.one N)).mBits = x.mBits ∧ ((x.one N).mul N x).mBits = x.mBits
      ∧ (x.mul N (x.one N)).eq x = true ∧ ((x.one N).mul N x).eq x = true := by
  have hN2 : 2 ≤ N := by omega
  have e1 : (x.mul N (x.one N)).mBits = x.mBits := by
    unfold Posit.mul
    by_cases hz : x.isZero = true
    · have hb : x.mBits = 0 := by simpa [Posit.isZero, util_is_zero, POSIT_ZERO] using hz
      have hi : (x.one N).isInf N = false := by
        simp [Posit.isInf, Posit.one, util_is_inf, posit_one_ne_inf N hN2]
      simp [hz, hi, Posit.zero, POSIT_ZERO, hb]
    · have hoz : (x.one N).isZero = false := by
        simp [Posit.isZero, Posit.one, util_is_zero, POSIT_ZERO, posit_one_ne_zero N]
      have hoo : (x.one N).isOne N = true := by
        simp [Posit.isOne, Posit.one, util_is_one]
      have hon : (x.one N).isNeg N = false := by
        simp [Posit.isNeg, Posit.one, one_not_neg N hN2]
      simp only [hz, hoz, hoo, hon, if_false, if_true, Bool.false_eq_true]
      by_cases ho : x.isOne N = true
      · simp only [ho, if_true]
        have hcases : x.mBits = POSIT_ONE N ∨ x.mBits = 2 ^ N - POSIT_ONE N := by
          simpa [Posit.isOne, util_is_one] using ho
        rcases hcases with h | h
        · have : x.isNeg N = false := by simp [Posit.isNeg, h, one_not_neg N hN2]
          simp [this, Posit.one, h]
        · have : x.isNeg N = true := by simp [Posit.isNeg, h, mone_is_neg N hN2]
          simp [this, Posit.one, Posit.neg, h, util_neg_one N x.mNbits hN hn]
      · simp [ho]
  have e2 : ((x.one N).mul N x).mBits = x.mBits := by
    unfold Posit.mul
    have hoz : (x.one N).isZero = false := by
      simp [Posit.isZero, Posit.one, util_is_zero, POSIT_ZERO, posit_one_ne_zero N]
    have hoi : (x.one N).isInf N = false := by
      simp [Posit.isInf, Posit.one, util_is_inf, posit_one_ne_inf N hN2]
    have hoo : (x.one N).isOne N = true := by
      simp [Posit.isOne, Posit.one, util_is_one]
    have hon : (x.one N).isNeg N = false := by
      simp [Posit.isNeg, Posit.one, one_not_neg N hN2]
    by_cases hz : x.isZero = true
    · have hb : x.mBits = 0 := by simpa [Posit.isZero, util_is_zero, POSIT_ZERO] using hz
      simp [hz, hoz, hoi, Posit.zero, POSIT_ZERO, hb]
    · simp [hz, hoz, hoo, hon]
  exact ⟨e1, e2, by simp [Posit.eq, e1], by simp [Posit.eq, e2]⟩

/-- C1, at the 8-bit `es = 0` format with an 8-bit storage word:
`mul(neg(one()), one())` has the bits of `neg(one())`, which are `11000000`,
and `mul(one(), one())` has the bits of `one()`, which are `01000000`. -/
theorem C1_mul_one_identity_witness :
    (((⟨0, 8, 0, false⟩ : Posit).one 8).neg 8).mNbits ≤ 8
      ∧ 2 ≤ (((⟨0, 8, 0, false⟩ : Posit).one 8).neg 8).mNbits
      ∧ ((((⟨0, 8, 0, false⟩ : Posit).one 8).neg 8).mul 8
            ((((⟨0, 8, 0, false⟩ : Posit).one 8).neg 8).one 8)).mBits
          = (((⟨0, 8, 0, false⟩ : Posit).one 8).neg 8).mBits
      ∧ (((⟨0, 8, 0, false⟩ : Posit).one 8).neg 8).mBits = 0xC0
      ∧ (((⟨0, 8, 0, false⟩ : Posit).one 8).mul 8
            (((⟨0, 8, 0, false⟩ : Posit).one 8).one 8)).mBits
          = ((⟨0, 8, 0, false⟩ : Posit).one 8).mBits
      ∧ ((⟨0, 8, 0, false⟩ : Posit).one 8).mBits = 0x40 :=
  ⟨by decide, by decide,
    (C1_mul_one_identity 8 (((⟨0, 8, 0, false⟩ : Posit).one 8).neg 8) (by decide)
      (by decide)).1,
    by decide,
    (C1_mul_one_identity 8 ((⟨0, 8, 0, false⟩ : Posit).one 8) (by decide) (by decide)).1,
    by decide⟩

/-- C2, counterexample: in the 8-bit `es = 0` format with an 8-bit storage
word, let `x` be the one-pattern `01000000` with the NaN flag set and `y` be
`one()`. Then `mul(x, y)` returns `y` (flag clear) and `mul(y, x)` returns
`x` (flag set): the packed bits agree and the NaN flags differ. -/
theorem C2_mul_comm_counterexample :
    ((⟨0x40, 8, 0, true⟩ : Posit).mul 8 ⟨0x40, 8, 0, false⟩).mBits
        = ((⟨0x40, 8, 0, false⟩ : Posit).mul 8 ⟨0x40, 8, 0, true⟩).mBits
      ∧ ((⟨0x40, 8, 0, true⟩ : Posit).mul 8 ⟨0x40, 8, 0, false⟩).mNan = false
      ∧ ((⟨0x40, 8, 0, false⟩ : Posit).mul 8 ⟨0x40, 8, 0, true⟩).mNan = true
      ∧ ((⟨0x40, 8, 0, true⟩ : Posit).mul 8 ⟨0x40, 8, 0, false⟩).mNan
        ≠ ((⟨0x40, 8, 0, false⟩ : Posit).mul 8 ⟨0x40, 8, 0, true⟩).mNan := by
  decide

/-- C2, amended. Commutativity of multiply: for all `x` and `y` of the same
format `(nbits, es)` with `2 ≤ nbits ≤ POSIT_SIZE` and left-justified packed
bits, `mul(x, y)` and `mul(y, x)` return results with identical packed bits
and identical format, on every fast path and on the general path; their NaN
flags are identical too, unless `x` and `y` are both one (plus or minus) and
the NaN flag of `x` or of `y` is set. -/
theorem C2_mul_comm (N : Nat) (x y : Posit) (hnb : x.mNbits = y.mNbits)
    (hes : x.mEs = y.mEs) (hn : 2 ≤ x.mNbits) (hN : x.mNbits ≤ N)
    (hx : LeftJustified N x.mNbits x.mBits) (hy : LeftJustified N y.mNbits y.mBits) :
    (x.mul N y).mBits = (y.mul N x).mBits
      ∧ (x.mul N y).mNbits = (y.mul N x).mNbits ∧ (x.mul N y).mEs = (y.mul N x).mEs
      ∧ ((x.mul N y).mNan = (y.mul N x).mNan
          ∨ (x.isOne N = true ∧ y.isOne N = true ∧ (x.mNan = true ∨ y.mNan = true))) := by
  have hN2 : 2 ≤ N := by omega
  have hzi : ∀ z : Posit, z.isZero = true → z.isInf N = false := by
    intro z hz
    have hb : z.mBits = 0 := by simpa [Posit.isZero, util_is_zero, POSIT_ZERO] using hz
    simp [Posit.isInf, util_is_inf, hb, (posit_inf_ne_zero N).symm]
  have hone : ∀ z : Posit, z.isOne N = true →
      (z.mBits = POSIT_ONE N ∧ z.isNeg N = false)
        ∨ (z.mBits = 2 ^ N - POSIT_ONE N ∧ z.isNeg N = true) := by
    intro z hz
    have hc : z.mBits = POSIT_ONE N ∨ z.mBits = 2 ^ N - POSIT_ONE N := by
      simpa [Posit.isOne, util_is_one] using hz
    rcases hc with h | h
    · exact Or.inl ⟨h, by simp [Posit.isNeg, h, one_not_neg N hN2]⟩
    · exact Or.inr ⟨h, by simp [Posit.isNeg, h, mone_is_neg N hN2]⟩
  have hrec : (x.rec_ N).eq y = (y.rec_ N).eq x := by
    have := util_rec_eq_symm N x.mNbits x.mEs x.mBits y.mBits hN (by omega) hx (hnb ▸ hy)
    simp only [Posit.eq, Posit.rec_, ← hnb, ← hes]
    rw [Bool.eq_iff_iff]
    simpa using this
  have hnrec : ((x.rec_ N).neg N).eq y = ((y.rec_ N).neg N).eq x := by
    have := util_neg_rec_eq_symm N x.mNbits x.mEs x.mBits y.mBits hN (by omega) hx (hnb ▸ hy)
    simp only [Posit.eq, Posit.rec_, Posit.neg, ← hnb, ← hes]
    rw [Bool.eq_iff_iff]
    simpa using this
  unfold Posit.mul
  cases hxz : x.isZero <;> cases hyz : y.isZero
  · -- neither operand is zero
    simp only [Bool.false_eq_true, if_false]
    cases hxo : x.isOne N <;> cases hyo : y.isOne N
    · -- neither operand is one
      simp only [Bool.false_eq_true, if_false]
      rw [hrec, hnrec, Bool.or_comm (y.isInf N) (x.isInf N),
        mulGeneral_comm N y x hnb.symm hes.symm]
      split_ifs <;>
        simp [Posit.inf, Posit.one, Posit.neg, Posit.mulGeneral, hnb, hes]
    · simp only [Bool.false_eq_true, if_false, if_true]
      simp
    · simp only [Bool.false_eq_true, if_false, if_true]
      simp
    · simp only [if_true]
      have hnegone : util_neg N (POSIT_ONE N) y.mNbits = 2 ^ N - POSIT_ONE N :=
        util_neg_one N y.mNbits (hnb ▸ hN) (hnb ▸ hn)
      rcases hone x hxo with ⟨hxb, hxn⟩ | ⟨hxb, hxn⟩ <;>
        rcases hone y hyo with ⟨hyb, hyn⟩ | ⟨hyb, hyn⟩ <;>
        simp only [hxn, hyn, Bool.false_eq_true, if_false, if_true]
      · refine ⟨by rw [hxb, hyb], hnb.symm, hes.symm, ?_⟩
        cases hxf : x.mNan <;> cases hyf : y.mNan <;> simp
      · refine ⟨by simp [Posit.neg, hxb, hyb, ← hnb, util_neg_one N x.mNbits hN hn],
          by simp [Posit.neg, hnb], by simp [Posit.neg, hes], ?_⟩
        cases hyf : y.mNan <;> simp [Posit.neg]
      · refine ⟨by simp [Posit.neg, hxb, hyb, hnegone],
          by simp [Posit.neg, hnb], by simp [Posit.neg, hes], ?_⟩
        cases hxf : x.mNan <;> simp [Posit.neg]
      · exact ⟨by simp [Posit.neg, hxb, hyb, hnb], by simp [Posit.neg, hnb],
          by simp [Posit.neg, hes], Or.inl rfl⟩
  · -- only `y` is zero
    simp only [Bool.false_eq_true, if_false, if_true]
    split_ifs <;> simp [Posit.nan, Posit.zero, hnb, hes]
  · -- only `x` is zero
    simp only [Bool.false_eq_true, if_false, if_true]
    split_ifs <;> simp [Posit.nan, Posit.zero, hnb, hes]
  · -- both operands are zero
    simp only [if_true, hzi x hxz, hzi y hyz, Bool.false_eq_true, if_false]
    simp [Posit.zero, hnb, hes]

/-- C2, amended, at the 8-bit `es = 0` values `01010000` (1.5) and
`01100000` (2) with an 8-bit storage word: both orders take the general path
and return `01101000` (3). -/
theorem C2_mul_comm_witness :
    (⟨0x50, 8, 0, false⟩ : Posit).mNbits = (⟨0x60, 8, 0, false⟩ : Posit).mNbits
      ∧ (⟨0x50, 8, 0, false⟩ : Posit).mEs = (⟨0x60, 8, 0, false⟩ : Posit).mEs
      ∧ 2 ≤ (⟨0x50, 8, 0, false⟩ : Posit).mNbits ∧ (⟨0x50, 8, 0, false⟩ : Posit).mNbits ≤ 8
      ∧ LeftJustified 8 8 0x50 ∧ LeftJustified 8 8 0x60
      ∧ ((⟨0x50, 8, 0, false⟩ : Posit).mul 8 ⟨0x60, 8, 0, false⟩).mBits = 0x68
      ∧ ((⟨0x50, 8, 0, false⟩ : Posit).mul 8 ⟨0x60, 8, 0, false⟩).mBits
        = ((⟨0x60, 8, 0, false⟩ : Posit).mul 8 ⟨0x50, 8, 0, false⟩).mBits :=
  ⟨rfl, rfl, by decide, by decide, by decide, by decide, by decide,
    (C2_mul_comm 8 ⟨0x50, 8, 0, false⟩ ⟨0x60, 8, 0, false⟩ rfl rfl (by decide) (by decide)
      (by decide) (by decide)).1⟩

/-- C3. Zero absorption: for every finite (non-infinite) `x`, nonzero or
not, `mul(x, zero())` and `mul(zero(), x)` return zero: the packed bits are
all zero and the NaN flag is clear. -/
theorem C3_mul_zero_absorbs (N : Nat) (x : Posit) (hfin : x.isInf N = false) :
    x.mul N x.zero = x.zero ∧ x.zero.mul N x = x.zero
      ∧ (x.mul N x.zero).mBits = 0 ∧ (x.mul N x.zero).mNan = false
      ∧ (x.zero.mul N x).mBits = 0 ∧ (x.zero.mul N x).mNan = false := by
  have hzz : x.zero.isZero = true := by simp [Posit.isZero, Posit.zero, util_is_zero]
  have hzi : x.zero.isInf N = false := by
    simp [Posit.isInf, Posit.zero, util_is_inf, POSIT_ZERO, (posit_inf_ne_zero N).symm]
  have e1 : x.mul N x.zero = x.zero := by
    unfold Posit.mul
    by_cases hz : x.isZero = true
    · rw [if_pos hz, if_neg (by simp [hzi])]
    · rw [if_neg hz, if_pos hzz, if_neg (by simp [hfin])]
  have e2 : x.zero.mul N x = x.zero := by
    unfold Posit.mul
    rw [if_pos hzz, if_neg (by simp [hfin])]
    rfl
  rw [e1, e2]
  exact ⟨rfl, rfl, rfl, rfl, rfl, rfl⟩

/-- C3, at the 8-bit `es = 0` value `01010000` (1.5) with an 8-bit storage
word. -/
theorem C3_mul_zero_absorbs_witness :
    (⟨0x50, 8, 0, false⟩ : Posit).isInf 8 = false
      ∧ (⟨0x50, 8, 0, false⟩ : Posit).mul 8 (⟨0x50, 8, 0, false⟩ : Posit).zero
          = ⟨0, 8, 0, false⟩
      ∧ (⟨0x50, 8, 0, false⟩ : Posit).zero.mul 8 ⟨0x50, 8, 0, false⟩ = ⟨0, 8, 0, false⟩ :=
  ⟨by decide, (C3_mul_zero_absorbs 8 ⟨0x50, 8, 0, false⟩ (by decide)).1,
    (C3_mul_zero_absorbs 8 ⟨0x50, 8, 0, false⟩ (by decide)).2.1⟩

/-- C4. Out-of-domain results are NaN: for every format `f` with
`1 ≤ nbits ≤ POSIT_SIZE`, `div(zero(), zero())`, `sub(inf(), inf())`,
`mul(inf(), zero())` and `mul(zero(), inf())` each return a value for which
`isNan()` is true. -/
theorem C4_out_of_domain_is_nan (N : Nat) (f : Posit) (hN : f.mNbits ≤ N) (hn : 1 ≤ f.mNbits) :
    (f.zero.div N f.zero).isNan = true ∧ ((f.inf N).sub N (f.inf N)).isNan = true
      ∧ ((f.inf N).mul N f.zero).isNan = true ∧ (f.zero.mul N (f.inf N)).isNan = true := by
  have hzz : f.zero.isZero = true := by simp [Posit.isZero, Posit.zero, util_is_zero]
  have hiz : (f.inf N).isZero = false := by
    simp [Posit.isZero, Posit.inf, util_is_zero, POSIT_ZERO, posit_inf_ne_zero N]
  have hii : (f.inf N).isInf N = true := by simp [Posit.isInf, Posit.inf, util_is_inf]
  have hrec : util_rec N 0 f.mNbits f.mEs = POSIT_INF N := by
    have h2 := pow_pred_double N (by omega)
    have h3 : 0 < 2 ^ (N - 1) := by positivity
    unfold util_rec POSIT_MSB POSIT_INF
    rw [util_neg_zero, Nat.zero_add]
    exact Nat.mod_eq_of_lt (by omega)
  refine ⟨?_, ?_, ?_, ?_⟩
  · have hri : (f.zero.rec_ N).isInf N = true := by
      simp [Posit.isInf, Posit.rec_, Posit.zero, POSIT_ZERO, hrec, util_is_inf]
    simp [Posit.div, Posit.mul, hzz, hri, Posit.nan, Posit.isNan]
  · have hni : ((f.inf N).neg N).isInf N = true := by
      simp [Posit.isInf, Posit.neg, Posit.inf, util_neg_inf N f.mNbits hN hn, util_is_inf]
    have hnz : ((f.inf N).neg N).isZero = false := by
      simp [Posit.isZero, Posit.neg, Posit.inf, util_neg_inf N f.mNbits hN hn, util_is_zero,
        POSIT_ZERO, posit_inf_ne_zero N]
    simp [Posit.sub, Posit.add, hiz, hii, hni, hnz, Posit.nan, Posit.isNan]
  · simp [Posit.mul, hiz, hzz, hii, Posit.nan, Posit.isNan]
  · simp [Posit.mul, hzz, hii, Posit.nan, Posit.isNan]

/-- C4, at the 8-bit `es = 0` format with an 8-bit storage word. -/
theorem C4_out_of_domain_is_nan_witness :
    (⟨0, 8, 0, false⟩ : Posit).mNbits ≤ 8 ∧ 1 ≤ (⟨0, 8, 0, false⟩ : Posit).mNbits
      ∧ ((⟨0, 8, 0, false⟩ : Posit).zero.div 8 (⟨0, 8, 0, false⟩ : Posit).zero).isNan = true
      ∧ (((⟨0, 8, 0, false⟩ : Posit).inf 8).sub 8 ((⟨0, 8, 0, false⟩ : Posit).inf 8)).isNan
          = true :=
  ⟨by decide, by decide,
    (C4_out_of_domain_is_nan 8 ⟨0, 8, 0, false⟩ (by decide) (by decide)).1,
    (C4_out_of_domain_is_nan 8 ⟨0, 8, 0, false⟩ (by decide) (by decide)).2.1⟩

/-- C5. Codec round trip: for every format `(nbits, es)` with
`nbits ≤ POSIT_SIZE` and every packed bit pattern `b` that is left-justified
for the format (it fits the storage word and its low `POSIT_SIZE - nbits`
bits are zero), `pack_posit(unpack_posit(b, nbits, es), nbits, es)` equals
`b`. -/
theorem C5_pack_unpack_roundtrip (N nbits es b : Nat) (hn : nbits ≤ N)
    (hb : LeftJustified N nbits b) :
    pack_posit N (unpack_posit N b nbits es) nbits es = b := by
  obtain ⟨hlt, hmod⟩ := hb
  obtain ⟨B, hB⟩ := Nat.dvd_of_mod_eq_zero hmod
  rw [Nat.mul_comm] at hB
  subst hB
  have hsplit : 2 ^ N = 2 ^ nbits * 2 ^ (N - nbits) := by
    rw [← pow_add]; congr 1; omega
  have hBlt : B < 2 ^ nbits := by
    rw [hsplit] at hlt
    exact Nat.lt_of_mul_lt_mul_right hlt
  have hs : 0 < 2 ^ (N - nbits) := by positivity
  have hdiv : B * 2 ^ (N - nbits) / 2 ^ (N - nbits) = B := Nat.mul_div_cancel _ hs
  match nbits, hn, hBlt, hs, hdiv with
  | 0, _, hBlt, _, hdiv =>
    have hB0 : B = 0 := by omega
    subst hB0
    simp [unpack_posit, pack_posit, util_rs, util_es, util_fs, util_ss, runLen, bitAt]
  | 1, _, hBlt, _, hdiv =>
    have hpow : 2 ^ (es + N) < 2 ^ (1 + es + N) :=
      Nat.pow_lt_pow_right (by decide) (by omega)
    have hcases : B = 0 ∨ B = 1 := by omega
    rcases hcases with h | h <;> subst h
    · simp [unpack_posit, pack_posit, util_rs, util_es, util_fs, util_ss, runLen, bitAt]
    · simp [unpack_posit, pack_posit, util_rs, util_es, util_fs, util_ss, runLen, bitAt, hdiv,
        Nat.mod_one, Nat.div_eq_of_lt hpow]
  | k + 2, hn, hBlt, _, _ => exact pack_unpack_view N k es B hn hBlt

/-- C5, at the 8-bit `es = 1` pattern `10110100` with an 8-bit storage
word. -/
theorem C5_pack_unpack_roundtrip_witness :
    8 ≤ 8 ∧ LeftJustified 8 8 0xB4
      ∧ unpack_posit 8 0xB4 8 1 = ⟨true, -1, 1, 0x40⟩
      ∧ pack_posit 8 (unpack_posit 8 0xB4 8 1) 8 1 = 0xB4 :=
  ⟨by decide, by decide, by decide,
    C5_pack_unpack_roundtrip 8 8 1 0xB4 (by decide) (by decide)⟩

/-- C6. Sign involution: for every `x` of a format with `nbits ≤ POSIT_SIZE`
whose packed bits are left-justified and whose NaN flag is clear (every
non-sentinel value is such an `x`), `neg(neg(x))` has the packed bits, the
format `(nbits, es)` and the clear NaN flag of `x`, where `neg` is the
two's-complement negation of the packed integer within the top `nbits`
bits. -/
theorem C6_neg_involution (N : Nat) (x : Posit) (hN : x.mNbits ≤ N)
    (hlj : LeftJustified N x.mNbits x.mBits) (hnan : x.mNan = false) :
    (x.neg N).neg N = x := by
  obtain ⟨b, n, e, f⟩ := x
  simp only at hN hlj hnan
  subst hnan
  simp only [Posit.neg, util_neg_neg N n b hN hlj]

/-- C6, at the 8-bit `es = 0` value `01010000` (1.5) with an 8-bit storage
word: its negation is `10110000`. -/
theorem C6_neg_involution_witness :
    (⟨0x50, 8, 0, false⟩ : Posit).mNbits ≤ 8
      ∧ LeftJustified 8 (⟨0x50, 8, 0, false⟩ : Posit).mNbits (⟨0x50, 8, 0, false⟩ : Posit).mBits
      ∧ (⟨0x50, 8, 0, false⟩ : Posit).mNan = false
      ∧ ((⟨0x50, 8, 0, false⟩ : Posit).neg 8).neg 8 = ⟨0x50, 8, 0, false⟩ :=
  ⟨by decide, by decide, rfl,
    C6_neg_involution 8 ⟨0x50, 8, 0, false⟩ (by decide) (by decide) rfl⟩

/-- C7. Total-order sanity of `gt`: for finite (non-infinite) `x` and `y`
with different packed bits, exactly one of `gt(x, y)` and `gt(y, x)` is true;
and for every `y`, `gt(inf(), y)` and `gt(y, inf())` are false. -/
theorem C7_gt_total_order_sanity (N : Nat) (x y : Posit) (hx : x.isInf N = false)
    (hy : y.isInf N = false) (hne : x.mBits ≠ y.mBits) :
    ((x.gt N y = true ∧ y.gt N x = false) ∨ (x.gt N y = false ∧ y.gt N x = true))
      ∧ ∀ f z : Posit, (f.inf N).gt N z = false ∧ z.gt N (f.inf N) = false := by
  constructor
  · simp only [Posit.gt, hx, hy, Bool.or_self, Bool.false_eq_true, if_false,
      decide_eq_true_eq, decide_eq_false_iff_not]
    omega
  · intro f z
    have hii : (f.inf N).isInf N = true := by simp [Posit.isInf, Posit.inf, util_is_inf]
    simp [Posit.gt, hii]

/-- C7, at the 8-bit `es = 0` values `01010000` and `01000000` with an 8-bit
storage word. -/
theorem C7_gt_total_order_sanity_witness :
    (⟨0x50, 8, 0, false⟩ : Posit).isInf 8 = false ∧ (⟨0x40, 8, 0, false⟩ : Posit).isInf 8 = false
      ∧ (⟨0x50, 8, 0, false⟩ : Posit).mBits ≠ (⟨0x40, 8, 0, false⟩ : Posit).mBits
      ∧ (((⟨0x50, 8, 0, false⟩ : Posit).gt 8 ⟨0x40, 8, 0, false⟩ = true
            ∧ (⟨0x40, 8, 0, false⟩ : Posit).gt 8 ⟨0x50, 8, 0, false⟩ = false)
          ∨ ((⟨0x50, 8, 0, false⟩ : Posit).gt 8 ⟨0x40, 8, 0, false⟩ = false
            ∧ (⟨0x40, 8, 0, false⟩ : Posit).gt 8 ⟨0x50, 8, 0, false⟩ = true)) :=
  ⟨by decide, by decide, by decide,
    (C7_gt_total_order_sanity 8 ⟨0x50, 8, 0, false⟩ ⟨0x40, 8, 0, false⟩ (by decide) (by decide)
      (by decide)).1⟩

/-- C8, at the failing input: in the 8-bit `es = 0` format with an 8-bit
storage word, minus one (`11000000`) is negative and finite and plus one
(`01000000`) is positive and finite, yet `gt(-1, 1)` is true and `gt(1, -1)`
is false: the unsigned comparison of the packed bits puts every negative
value above every positive one. -/
theorem C8_gt_negative_above_positive :
    ((⟨0x40, 8, 0, false⟩ : Posit).neg 8).mBits = 0xC0
      ∧ ((⟨0x40, 8, 0, false⟩ : Posit).neg 8).isNeg 8 = true
      ∧ ((⟨0x40, 8, 0, false⟩ : Posit).neg 8).isInf 8 = false
      ∧ (⟨0x40, 8, 0, false⟩ : Posit).isNeg 8 = false
      ∧ (⟨0x40, 8, 0, false⟩ : Posit).isInf 8 = false
      ∧ ((⟨0x40, 8, 0, false⟩ : Posit).neg 8).gt 8 ⟨0x40, 8, 0, false⟩ = true
      ∧ (⟨0x40, 8, 0, false⟩ : Posit).gt 8 ((⟨0x40, 8, 0, false⟩ : Posit).neg 8) = false := by
  decide

/-- C9, at the failing input: in the 8-bit `es = 0` format with an 8-bit
storage word, `lt(inf(), one())` and `lt(one(), inf())` are both true,
although `gt` is false in both orders: `lt` is the negation of `gt`-or-`eq`
and does not carry the infinity guard of `gt`. -/
theorem C9_lt_true_at_infinity :
    ((⟨0, 8, 0, false⟩ : Posit).inf 8).isInf 8 = true
      ∧ ((⟨0, 8, 0, false⟩ : Posit).inf 8).lt 8 ((⟨0, 8, 0, false⟩ : Posit).one 8) = true
      ∧ ((⟨0, 8, 0, false⟩ : Posit).one 8).lt 8 ((⟨0, 8, 0, false⟩ : Posit).inf 8) = true
      ∧ ((⟨0, 8, 0, false⟩ : Posit).inf 8).gt 8 ((⟨0, 8, 0, false⟩ : Posit).one 8) = false
      ∧ ((⟨0, 8, 0, false⟩ : Posit).one 8).gt 8 ((⟨0, 8, 0, false⟩ : Posit).inf 8) = false := by
  decide

/-- C10, counterexample: in the 8-bit `es = 0` format with an 8-bit storage
word, `add(nan(), zero())` is not `nan()` unchanged: the NaN flag of the
left operand is lost. -/
theorem C10_add_zero_counterexample :
    (⟨0, 8, 0, false⟩ : Posit).nan.mNan = true
      ∧ ((⟨0, 8, 0, false⟩ : Posit).nan.add 8 (⟨0, 8, 0, false⟩ : Posit).nan.zero).mNan = false
      ∧ (⟨0, 8, 0, false⟩ : Posit).nan.add 8 (⟨0, 8, 0, false⟩ : Posit).nan.zero
          ≠ (⟨0, 8, 0, false⟩ : Posit).nan := by
  decide

/-- C10, amended. Additive identity: `add(zero(), y)` returns `y` unchanged;
`add(x, zero())` returns a value with the packed bits and the format of `x`,
and with the NaN flag of `x` except that the flag is cleared when the packed
bits of `x` are zero (then the result is `zero()`). -/
theorem C10_add_zero_identity (N : Nat) (x y : Posit) :
    y.zero.add N y = y
      ∧ x.add N x.zero = ⟨x.mBits, x.mNbits, x.mEs, x.mNan && !x.isZero⟩ := by
  have hzz : ∀ z : Posit, z.zero.isZero = true := fun z => by
    simp [Posit.isZero, Posit.zero, util_is_zero]
  constructor
  · unfold Posit.add
    rw [if_pos (hzz y)]
  · unfold Posit.add
    by_cases hz : x.isZero = true
    · have hb : x.mBits = 0 := by simpa [Posit.isZero, util_is_zero, POSIT_ZERO] using hz
      rw [if_pos hz]
      simp [Posit.zero, POSIT_ZERO, hz, hb]
    · rw [if_neg hz, if_pos (hzz x)]
      simp [hz]

/-- C11, counterexample: in the 8-bit `es = 0` format with an 8-bit storage
word, let `y` carry the infinity pattern `10000000` and the NaN flag. Then
exactly one of `zero()` and `y` is infinite, and `add(zero(), y)` and
`mul(one(), y)` return `y` as it is: the packed bits are the infinity
pattern and the NaN flag is set, not clear. -/
theorem C11_infinity_absorbing_counterexample :
    (⟨0, 8, 0, false⟩ : Posit).zero.isInf 8 = false
      ∧ (⟨0x80, 8, 0, true⟩ : Posit).isInf 8 = true
      ∧ ((⟨0, 8, 0, false⟩ : Posit).zero.add 8 ⟨0x80, 8, 0, true⟩).mBits = POSIT_INF 8
      ∧ ((⟨0, 8, 0, false⟩ : Posit).zero.add 8 ⟨0x80, 8, 0, true⟩).mNan = true
      ∧ (((⟨0, 8, 0, false⟩ : Posit).one 8).mul 8 ⟨0x80, 8, 0, true⟩).mNan = true := by
  decide

/-- C11, amended. Infinity is absorbing: for all `x`, `y` of the same format
with `2 ≤ nbits ≤ POSIT_SIZE`, if exactly one of `x`, `y` is infinite then
`add(x, y)` has the infinity pattern as packed bits, and its NaN flag is
clear unless the other operand is zero, in which case `add` returns the
infinite operand as it is, with the flag it carries; and if at least one of
`x`, `y` is infinite and neither is zero then `mul(x, y)` has the infinity
pattern as packed bits, and its NaN flag is clear unless the other operand is
plus one, in which case `mul` returns the infinite operand as it is. -/
theorem C11_infinity_absorbing (N : Nat) (x y : Posit) (hnb : x.mNbits = y.mNbits)
    (hes : x.mEs = y.mEs) (hn : 2 ≤ x.mNbits) (hN : x.mNbits ≤ N) :
    (x.isInf N ≠ y.isInf N →
        x.add N y = ⟨POSIT_INF N, x.mNbits, x.mEs,
          (x.isZero && y.mNan) || (y.isZero && x.mNan)⟩)
      ∧ (x.isInf N = true ∨ y.isInf N = true → x.isZero = false → y.isZero = false →
        x.mul N y = ⟨POSIT_INF N, x.mNbits, x.mEs,
          (x.isOne N && !x.isNeg N && y.mNan) || (y.isOne N && !y.isNeg N && x.mNan)⟩) := by
  have hN2 : 2 ≤ N := by omega
  obtain ⟨a, n, e, fa⟩ := x
  obtain ⟨b, n', e', fb⟩ := y
  simp only at hnb hes hn hN
  subst hnb hes
  constructor
  · intro hne
    unfold Posit.add
    cases hxz : Posit.isZero ⟨a, n, e, fa⟩
    · cases hyz : Posit.isZero ⟨b, n, e, fb⟩
      · cases hxi : Posit.isInf N ⟨a, n, e, fa⟩ <;> cases hyi : Posit.isInf N ⟨b, n, e, fb⟩ <;>
          simp_all [Posit.inf]
      · have hyi := isZero_not_isInf N _ hyz
        have hxi : Posit.isInf N ⟨a, n, e, fa⟩ = true := by
          cases h : Posit.isInf N ⟨a, n, e, fa⟩ <;> simp_all
        have hb := isInf_bits N _ hxi
        simp only at hb
        subst hb
        simp [hxz, hyz]
    · have hxi := isZero_not_isInf N _ hxz
      have hyi : Posit.isInf N ⟨b, n, e, fb⟩ = true := by
        cases h : Posit.isInf N ⟨b, n, e, fb⟩ <;> simp_all
      have hb := isInf_bits N _ hyi
      have hyz : Posit.isZero ⟨b, n, e, fb⟩ = false := by
        cases h : Posit.isZero ⟨b, n, e, fb⟩
        · rfl
        · have := isZero_not_isInf N _ h
          simp_all
      simp only at hb
      subst hb
      simp [hxz, hyz]
  · intro hinf hxz hyz
    unfold Posit.mul
    simp only [hxz, hyz, Bool.false_eq_true, if_false]
    cases hxo : Posit.isOne N ⟨a, n, e, fa⟩
    · cases hyo : Posit.isOne N ⟨b, n, e, fb⟩
      · have hor : (Posit.isInf N ⟨a, n, e, fa⟩ || Posit.isInf N ⟨b, n, e, fb⟩) = true := by
          rcases hinf with h | h <;> simp [h]
        simp [hor, Posit.inf]
      · have hyi := isOne_not_isInf N hN2 _ hyo
        have hxi : Posit.isInf N ⟨a, n, e, fa⟩ = true := by
          rcases hinf with h | h
          · exact h
          · simp_all
        have ha := isInf_bits N _ hxi
        simp only at ha
        subst ha
        cases hyn : Posit.isNeg N ⟨b, n, e, fb⟩ <;>
          simp [hxo, hyo, hyn, Posit.neg, util_neg_inf N n hN (by omega)]
    · have hxi := isOne_not_isInf N hN2 _ hxo
      have hyi : Posit.isInf N ⟨b, n, e, fb⟩ = true := by
        rcases hinf with h | h
        · simp_all
        · exact h
      have hyo : Posit.isOne N ⟨b, n, e, fb⟩ = false := by
        cases h : Posit.isOne N ⟨b, n, e, fb⟩
        · rfl
        · have := isOne_not_isInf N hN2 _ h
          simp_all
      have hb := isInf_bits N _ hyi
      simp only at hb
      subst hb
      cases hxn : Posit.isNeg N ⟨a, n, e, fa⟩ <;>
        simp [hxo, hyo, hxn, Posit.neg, util_neg_inf N n hN (by omega)]

/-- C11, amended, at the 8-bit `es = 0` format with an 8-bit storage word:
`add(01010000, inf())` and `mul(01010000, inf())` are `inf()` with the
NaN flag clear. -/
theorem C11_infinity_absorbing_witness :
    (⟨0x50, 8, 0, false⟩ : Posit).mNbits = (⟨0x80, 8, 0, false⟩ : Posit).mNbits
      ∧ (⟨0x50, 8, 0, false⟩ : Posit).mEs = (⟨0x80, 8, 0, false⟩ : Posit).mEs
      ∧ 2 ≤ (⟨0x50, 8, 0, false⟩ : Posit).mNbits ∧ (⟨0x50, 8, 0, false⟩ : Posit).mNbits ≤ 8
      ∧ (⟨0x50, 8, 0, false⟩ : Posit).add 8 ⟨0x80, 8, 0, false⟩ = ⟨0x80, 8, 0, false⟩
      ∧ (⟨0x50, 8, 0, false⟩ : Posit).mul 8 ⟨0x80, 8, 0, false⟩ = ⟨0x80, 8, 0, false⟩ :=
  ⟨rfl, rfl, by decide, by decide,
    (C11_infinity_absorbing 8 ⟨0x50, 8, 0, false⟩ ⟨0x80, 8, 0, false⟩ rfl rfl (by decide)
      (by decide)).1 (by decide),
    (C11_infinity_absorbing 8 ⟨0x50, 8, 0, false⟩ ⟨0x80, 8, 0, false⟩ rfl rfl (by decide)
      (by decide)).2 (by decide) (by decide) (by decide)⟩

/-- C12. Additive cancellation: for every finite (non-infinite) `x` of a
format with `nbits ≤ POSIT_SIZE` and left-justified packed bits,
`add(x, neg(x))` returns zero and `sub(x, x)` returns zero: the packed bits
are all zero and the NaN flag is clear. -/
theorem C12_add_neg_cancels (N : Nat) (x : Posit) (hN : x.mNbits ≤ N)
    (hlj : LeftJustified N x.mNbits x.mBits) (hfin : x.isInf N = false) :
    x.add N (x.neg N) = x.zero ∧ x.sub N x = x.zero
      ∧ (x.add N (x.neg N)).mBits = 0 ∧ (x.add N (x.neg N)).mNan = false
      ∧ (x.sub N x).mBits = 0 ∧ (x.sub N x).mNan = false := by
  have hneg := util_neg_cases N x.mNbits x.mBits hN hlj
  have hlt := hlj.1
  have key : x.add N (x.neg N) = x.zero := by
    unfold Posit.add
    by_cases hz : x.isZero = true
    · have hb : x.mBits = 0 := by simpa [Posit.isZero, util_is_zero, POSIT_ZERO] using hz
      rw [if_pos hz]
      simp [Posit.neg, Posit.zero, POSIT_ZERO, hb, util_neg_zero]
    · have hb : x.mBits ≠ 0 := by simpa [Posit.isZero, util_is_zero, POSIT_ZERO] using hz
      have hN1 : 1 ≤ N := by
        rcases Nat.eq_zero_or_pos N with h0 | h0
        · subst h0
          simp at hlt
          omega
        · exact h0
      have h2 := pow_pred_double N hN1
      have hxi : x.mBits ≠ 2 ^ (N - 1) := by
        simpa [Posit.isInf, util_is_inf, POSIT_INF] using hfin
      rw [if_neg hb] at hneg
      have hnz : (x.neg N).isZero = false := by
        simp only [Posit.isZero, Posit.neg, util_is_zero, POSIT_ZERO, hneg, beq_eq_false_iff_ne]
        omega
      have hni : (x.neg N).isInf N = false := by
        simp only [Posit.isInf, Posit.neg, util_is_inf, POSIT_INF, hneg, beq_eq_false_iff_ne]
        omega
      have heq : (x.neg N).eq (x.neg N) = true := by simp [Posit.eq]
      rw [if_neg hz, if_neg (by simp [hnz]), if_neg (by simp [hfin]),
        if_neg (by simp [hfin, hni]), if_pos heq]
  have key2 : x.sub N x = x.zero := key
  rw [key2, key]
  exact ⟨rfl, rfl, rfl, rfl, rfl, rfl⟩

/-- C12, at the 8-bit `es = 0` value `01010000` (1.5) with an 8-bit storage
word. -/
theorem C12_add_neg_cancels_witness :
    (⟨0x50, 8, 0, false⟩ : Posit).mNbits ≤ 8 ∧ LeftJustified 8 8 0x50
      ∧ (⟨0x50, 8, 0, false⟩ : Posit).isInf 8 = false
      ∧ (⟨0x50, 8, 0, false⟩ : Posit).add 8 ((⟨0x50, 8, 0, false⟩ : Posit).neg 8)
          = ⟨0, 8, 0, false⟩
      ∧ (⟨0x50, 8, 0, false⟩ : Posit).sub 8 ⟨0x50, 8, 0, false⟩ = ⟨0, 8, 0, false⟩ :=
  ⟨by decide, by decide, by decide,
    (C12_add_neg_cancels 8 ⟨0x50, 8, 0, false⟩ (by decide) (by decide) (by decide)).1,
    (C12_add_neg_cancels 8 ⟨0x50, 8, 0, false⟩ (by decide) (by decide) (by decide)).2.1⟩

/-- C13. Raw-bit accessors: for every format with `nbits ≤ POSIT_SIZE` and
every `b < 2 ^ nbits`, after `setBits(b)` the stored word has its low
`POSIT_SIZE - nbits` bits equal to zero (it is left-justified) and
`getBits()` returns `b`; and in the 8-bit `es = 0` format, whatever the
storage width `M + 8`, `zero().getBits()` is `00000000` and
`one().getBits()` is `01000000`. -/
theorem C13_setBits_getBits (N : Nat) (x : Posit) (b : Nat) (hN : x.mNbits ≤ N)
    (hb : b < 2 ^ x.mNbits) :
    (x.setBits N b).mBits % 2 ^ (N - x.mNbits) = 0
      ∧ LeftJustified N x.mNbits (x.setBits N b).mBits
      ∧ (x.setBits N b).getBits N = b
      ∧ ∀ (M bits : Nat) (nan : Bool),
          (Posit.zero ⟨bits, 8, 0, nan⟩).getBits (M + 8) = 0
            ∧ (Posit.one (M + 8) ⟨bits, 8, 0, nan⟩).getBits (M + 8) = 0x40 := by
  have hsplit : 2 ^ N = 2 ^ x.mNbits * 2 ^ (N - x.mNbits) := by
    rw [← pow_add]; congr 1; omega
  have hs : 0 < 2 ^ (N - x.mNbits) := by positivity
  have hlt : b * 2 ^ (N - x.mNbits) < 2 ^ N := by
    rw [hsplit]
    exact Nat.mul_lt_mul_of_pos_right hb hs
  have hbits : (x.setBits N b).mBits = b * 2 ^ (N - x.mNbits) := by
    simp only [Posit.setBits, Nat.shiftLeft_eq]
    exact Nat.mod_eq_of_lt hlt
  have hfmt : (x.setBits N b).mNbits = x.mNbits := rfl
  refine ⟨?_, ⟨?_, ?_⟩, ?_, ?_⟩
  · rw [hbits]; exact Nat.mul_mod_left _ _
  · rw [hbits]; exact hlt
  · rw [hbits]; exact Nat.mul_mod_left _ _
  · simp only [Posit.getBits, hfmt, hbits, Nat.shiftRight_eq_div_pow]
    exact Nat.mul_div_cancel _ hs
  · intro M bits nan
    constructor
    · simp [Posit.getBits, Posit.zero, POSIT_ZERO]
    · have h6 : M + 8 - 2 = 6 + M := by omega
      simp only [Posit.getBits, Posit.one, POSIT_ONE, Nat.shiftRight_eq_div_pow,
        Nat.add_sub_cancel, h6, pow_add]
      rw [Nat.mul_div_cancel _ (by positivity)]
      norm_num

/-- C13, at the 5-bit `es = 1` format in an 8-bit storage word: `setBits`
of `10110` stores `10110000` and `getBits` returns `10110`. -/
theorem C13_setBits_getBits_witness :
    (⟨0, 5, 1, false⟩ : Posit).mNbits ≤ 8 ∧ 0x16 < 2 ^ (⟨0, 5, 1, false⟩ : Posit).mNbits
      ∧ ((⟨0, 5, 1, false⟩ : Posit).setBits 8 0x16).mBits = 0xB0
      ∧ ((⟨0, 5, 1, false⟩ : Posit).setBits 8 0x16).getBits 8 = 0x16 :=
  ⟨by decide, by decide, by decide,
    (C13_setBits_getBits 8 ⟨0, 5, 1, false⟩ 0x16 (by decide) (by decide)).2.2.1⟩

/-- C14, at the failing input: in the 8-bit `es = 0` format with an 8-bit
storage word, `nan()` has its NaN flag set and zero packed bits, and
`getFloat()` and `getDouble()` take the zero branch on it; so they do on a
value set to zero and then to NaN; a value with the infinity pattern and the
NaN flag takes the infinity branch. Only a flagged value whose packed bits
are neither zero nor the infinity pattern (here `01010000`) reaches the NaN
branch. -/
theorem C14_nan_reads_as_zero :
    (⟨0, 8, 0, false⟩ : Posit).nan.isNan = true
      ∧ (⟨0, 8, 0, false⟩ : Posit).nan.getFloat 8 = IeeeValue.zero
      ∧ (⟨0, 8, 0, false⟩ : Posit).nan.getDouble 8 = IeeeValue.zero
      ∧ (((⟨0x50, 8, 0, false⟩ : Posit).setFloat 8 FpClass.zero).setFloat 8 FpClass.nan).isNan
          = true
      ∧ (((⟨0x50, 8, 0, false⟩ : Posit).setFloat 8 FpClass.zero).setFloat 8
            FpClass.nan).getFloat 8 = IeeeValue.zero
      ∧ (⟨0x80, 8, 0, true⟩ : Posit).getFloat 8 = IeeeValue.inf
      ∧ (⟨0x80, 8, 0, true⟩ : Posit).getDouble 8 = IeeeValue.inf
      ∧ (⟨0x50, 8, 0, true⟩ : Posit).getFloat 8 = IeeeValue.nan
      ∧ (⟨0x50, 8, 0, true⟩ : Posit).getDouble 8 = IeeeValue.nan := by
  decide

/-- C17. Generic addition is a stub: for all `x` and `y` that are both
nonzero, both non-infinite and not negation-equal (the bits of `neg(x)`
differ from the bits of `y`), `add(x, y)` returns `x` unchanged, whatever
`y` is. -/
theorem C17_add_generic_returns_left (N : Nat) (x y : Posit) (hxz : x.isZero = false)
    (hyz : y.isZero = false) (hxi : x.isInf N = false) (hyi : y.isInf N = false)
    (hne : (x.neg N).mBits ≠ y.mBits) :
    x.add N y = x := by
  have heq : (x.neg N).eq y = false := by
    simpa [Posit.eq] using hne
  simp [Posit.add, hxz, hyz, hxi, hyi, heq]

/-- C17, at the 8-bit `es = 0` values `01010000` (1.5) and `01100000` (2)
with an 8-bit storage word: `add` returns `01010000`. -/
theorem C17_add_generic_returns_left_witness :
    (⟨0x50, 8, 0, false⟩ : Posit).isZero = false ∧ (⟨0x60, 8, 0, false⟩ : Posit).isZero = false
      ∧ (⟨0x50, 8, 0, false⟩ : Posit).isInf 8 = false
      ∧ (⟨0x60, 8, 0, false⟩ : Posit).isInf 8 = false
      ∧ ((⟨0x50, 8, 0, false⟩ : Posit).neg 8).mBits ≠ (⟨0x60, 8, 0, false⟩ : Posit).mBits
      ∧ (⟨0x50, 8, 0, false⟩ : Posit).add 8 ⟨0x60, 8, 0, false⟩ = ⟨0x50, 8, 0, false⟩ :=
  ⟨by decide, by decide, by decide, by decide, by decide,
    C17_add_generic_returns_left 8 ⟨0x50, 8, 0, false⟩ ⟨0x60, 8, 0, false⟩ (by decide)
      (by decide) (by decide) (by decide) (by decide)⟩

/-- C18. Trichotomy of the comparison predicates: for all `x` and `y`
(infinite values included), exactly one of `lt(x, y)`, `eq(x, y)`,
`gt(x, y)` is true; `ge(x, y)` is the negation of `lt(x, y)`, and
`le(x, y)` is equivalent to `lt(x, y)` or `eq(x, y)`. -/
theorem C18_comparison_trichotomy (N : Nat) (x y : Posit) :
    ((x.lt N y = true ∧ x.eq y = false ∧ x.gt N y = false)
        ∨ (x.lt N y = false ∧ x.eq y = true ∧ x.gt N y = false)
        ∨ (x.lt N y = false ∧ x.eq y = false ∧ x.gt N y = true))
      ∧ x.ge N y = !x.lt N y
      ∧ (x.le N y = true ↔ x.lt N y = true ∨ x.eq y = true) := by
  have key : x.gt N y = true → x.eq y = false := by
    unfold Posit.gt Posit.eq
    split
    · simp
    · intro h
      have : x.mBits > y.mBits := by simpa using h
      simp only [beq_eq_false_iff_ne]
      omega
  unfold Posit.lt Posit.ge Posit.le
  cases hg : x.gt N y <;> cases he : x.eq y <;> simp_all

/-- C19. Self-division: for every `x` of a format with
`2 ≤ nbits ≤ POSIT_SIZE` and left-justified packed bits that is neither zero
nor infinite, `div(x, x)` returns exactly `one()` (the packed bits are the
one-pattern and the NaN flag is clear), and `mul(x, rec(x))` returns the same
result. -/
theorem C19_self_division (N : Nat) (x : Posit) (hn : 2 ≤ x.mNbits) (hN : x.mNbits ≤ N)
    (hlj : LeftJustified N x.mNbits x.mBits) (hxz : x.isZero = false)
    (hxi : x.isInf N = false) :
    x.div N x = x.one N ∧ x.mul N (x.rec_ N) = x.one N
      ∧ (x.div N x).mBits = POSIT_ONE N ∧ (x.div N x).mNan = false := by
  have hN2 : 2 ≤ N := by omega
  have hH := pow_pred_double N (by omega)
  have hQ : 2 ^ (N - 2) + 2 ^ (N - 2) = 2 ^ (N - 1) := by
    have := pow_pred_double (N - 1) (by omega)
    rwa [show N - 1 - 1 = N - 2 by omega] at this
  have hlt := hlj.1
  have ha0 : x.mBits ≠ 0 := by simpa [Posit.isZero, util_is_zero, POSIT_ZERO] using hxz
  have haH : x.mBits ≠ 2 ^ (N - 1) := by
    simpa [Posit.isInf, util_is_inf, POSIT_INF] using hxi
  have hrec := util_rec_cases N x.mNbits x.mEs x.mBits hN (by omega) hlj
  have hrlj := leftJustified_util_rec N x.mNbits x.mEs x.mBits hN (by omega)
  have hnegrec := util_neg_cases N x.mNbits _ hN hrlj
  have hrz : (x.rec_ N).isZero = false := by
    simp only [Posit.isZero, Posit.rec_, util_is_zero, POSIT_ZERO, beq_eq_false_iff_ne, hrec]
    split_ifs <;> omega
  have hri : (x.rec_ N).isInf N = false := by
    simp only [Posit.isInf, Posit.rec_, util_is_inf, POSIT_INF, beq_eq_false_iff_ne, hrec]
    split_ifs <;> omega
  have key : x.mul N (x.rec_ N) = x.one N := by
    unfold Posit.mul
    rw [if_neg (by simp [hxz]), if_neg (by simp [hrz])]
    by_cases hxo : x.isOne N = true
    · rw [if_pos hxo]
      have hc : x.mBits = 2 ^ (N - 2) ∨ x.mBits = 2 ^ N - 2 ^ (N - 2) := by
        simpa [Posit.isOne, util_is_one, POSIT_ONE] using hxo
      rcases hc with hb | hb
      · have hneg : x.isNeg N = false := by
          have := one_not_neg N hN2
          simpa [Posit.isNeg, POSIT_ONE, hb] using this
        have hr : util_rec N x.mBits x.mNbits x.mEs = 2 ^ (N - 2) := by
          rw [hrec]; split_ifs <;> omega
        rw [if_neg (by simp [hneg])]
        simp only [Posit.rec_, Posit.one, POSIT_ONE, hr]
      · have hneg : x.isNeg N = true := by
          have := mone_is_neg N hN2
          simpa [Posit.isNeg, POSIT_ONE, hb] using this
        have hr : util_neg N (util_rec N x.mBits x.mNbits x.mEs) x.mNbits = 2 ^ (N - 2) := by
          rw [hnegrec, hrec]; split_ifs <;> omega
        rw [if_pos hneg]
        simp only [Posit.rec_, Posit.neg, Posit.one, POSIT_ONE, hr]
    · have hx1 : x.mBits ≠ 2 ^ (N - 2) ∧ x.mBits ≠ 2 ^ N - 2 ^ (N - 2) := by
        simpa [Posit.isOne, util_is_one, POSIT_ONE] using hxo
      have hro : (x.rec_ N).isOne N = false := by
        simp only [Posit.isOne, Posit.rec_, util_is_one, POSIT_ONE, Bool.or_eq_false_iff,
          beq_eq_false_iff_ne, hrec]
        split_ifs <;> omega
      have heq : ((x.rec_ N).eq (x.rec_ N)) = true := by simp [Posit.eq]
      rw [if_neg hxo, if_neg (by simp [hro]), if_neg (by simp [hxi, hri]), if_pos heq]
  have key2 : x.div N x = x.one N := key
  rw [key2, key]
  exact ⟨rfl, rfl, rfl, rfl⟩

/-- C19, at the 8-bit `es = 0` value `01010000` (1.5) with an 8-bit storage
word: its reciprocal pattern is `00110000` and `div(x, x)` is `01000000`. -/
theorem C19_self_division_witness :
    2 ≤ (⟨0x50, 8, 0, false⟩ : Posit).mNbits ∧ (⟨0x50, 8, 0, false⟩ : Posit).mNbits ≤ 8
      ∧ LeftJustified 8 8 0x50 ∧ (⟨0x50, 8, 0, false⟩ : Posit).isZero = false
      ∧ (⟨0x50, 8, 0, false⟩ : Posit).isInf 8 = false
      ∧ ((⟨0x50, 8, 0, false⟩ : Posit).rec_ 8).mBits = 0x30
      ∧ (⟨0x50, 8, 0, false⟩ : Posit).div 8 ⟨0x50, 8, 0, false⟩ = ⟨0x40, 8, 0, false⟩ :=
  ⟨by decide, by decide, by decide, by decide, by decide, by decide,
    (C19_self_division 8 ⟨0x50, 8, 0, false⟩ (by decide) (by decide) (by decide) (by decide)
      (by decide)).1⟩

/-- C20. NaN is not sticky: for `n = nan()` of any format (NaN flag set,
packed bits zero) and every non-infinite `y`, `mul(n, y)` and `mul(y, n)`
return a zero whose NaN flag is clear, and `neg(n)` and `rec(n)` return
values whose NaN flag is clear. -/
theorem C20_nan_not_sticky (N : Nat) (f y : Posit) (hfin : y.isInf N = false) :
    f.nan.mNan = true ∧ f.nan.mBits = 0
      ∧ (f.nan.mul N y).mBits = 0 ∧ (f.nan.mul N y).mNan = false
      ∧ (y.mul N f.nan).mBits = 0 ∧ (y.mul N f.nan).mNan = false
      ∧ (f.nan.neg N).mNan = false ∧ (f.nan.rec_ N).mNan = false := by
  have hnz : f.nan.isZero = true := by simp [Posit.isZero, Posit.nan, util_is_zero, POSIT_ZERO]
  have hni : f.nan.isInf N = false := isZero_not_isInf N _ hnz
  have e1 : f.nan.mul N y = f.nan.zero := by
    unfold Posit.mul
    rw [if_pos hnz, if_neg (by simp [hfin])]
  have e2 : y.mul N f.nan = y.zero := by
    unfold Posit.mul
    by_cases hz : y.isZero = true
    · rw [if_pos hz, if_neg (by simp [hni])]
    · rw [if_neg hz, if_pos hnz, if_neg (by simp [hfin])]
  rw [e1, e2]
  exact ⟨rfl, rfl, rfl, rfl, rfl, rfl, rfl, rfl⟩

/-- C20, at the 8-bit `es = 0` format with an 8-bit storage word and
`y = 01010000` (1.5). -/
theorem C20_nan_not_sticky_witness :
    (⟨0x50, 8, 0, false⟩ : Posit).isInf 8 = false
      ∧ (⟨0, 8, 0, false⟩ : Posit).nan.mul 8 ⟨0x50, 8, 0, false⟩ = ⟨0, 8, 0, false⟩
      ∧ (⟨0x50, 8, 0, false⟩ : Posit).mul 8 (⟨0, 8, 0, false⟩ : Posit).nan = ⟨0, 8, 0, false⟩
      ∧ ((⟨0, 8, 0, false⟩ : Posit).nan.mul 8 ⟨0x50, 8, 0, false⟩).mNan = false :=
  ⟨by decide, by decide, by decide,
    (C20_nan_not_sticky 8 ⟨0, 8, 0, false⟩ ⟨0x50, 8, 0, false⟩ (by decide)).2.2.2.1⟩

end Bfp
